import Mathlib

/-!
Shallow embedding of `src/prediction_market_bot.py` (class `PredictionMarketBot`).

Python `int` is modelled as `Int`.  Python `//` (floor division) is applied by
the source only with a positive divisor, where it agrees with Lean's `Int`
division (`/` is Euclidean division, equal to floor division for positive
divisors).  A Python `dict` (keyed lookup, insertion-ordered iteration) is
modelled as an association list whose new keys are appended at the end.
`process_command` creates the sender's account before dispatching to a
handler, so every account access a handler performs is on a present key.
Wall-clock timestamp fields (`timestamp`, `created_at`, `resolved_at`) carry
no ledger information and are not modelled.  Market ids are modelled by their
numeric counter value (the source renders the counter as the string
`f"MKT{n:04d}"`, an injective rendering).
-/

/-- Lookup in an association list (Python `dict[k]` / `dict.get(k)`). -/
def lookupVal {κ α : Type} [DecidableEq κ] : List (κ × α) → κ → Option α
  | [], _ => none
  | p :: ps, k => if p.1 = k then some p.2 else lookupVal ps k

/-- Update the value stored at a key in place (Python `dict[k] = f(dict[k])`
on a present key; a no-op when the key is absent, which the command layer
makes unreachable). -/
def updateVal {κ α : Type} [DecidableEq κ] (l : List (κ × α)) (k : κ) (f : α → α) :
    List (κ × α) :=
  l.map (fun p => if p.1 = k then (p.1, f p.2) else p)

/-- A participant account: the per-user dict created by `_ensure_user`. -/
structure Account where
  balance : Int
  lifetime_winnings : Int
  markets_created : Nat
  bets_placed : Nat
deriving Repr, DecidableEq

/-- A stake (`Bet` dataclass).  `option_index` is stored 0-based; `_cmd_bet`
validates `0 ≤ option_index < len(options)` before constructing it, so it is
modelled as `Nat`. -/
structure Bet where
  user : String
  option_index : Nat
  amount : Int
deriving Repr, DecidableEq

/-- The `Market` dataclass.  `status` is one of the source's literal strings
`"open"`, `"resolved"`, `"cancelled"`. -/
structure Market where
  market_id : Nat
  question : String
  creator : String
  options : List String
  status : String
  bets : List Bet
  winning_option : Option Nat
deriving Repr, DecidableEq

/-- `Market.total_pool`: sum of all stake amounts in the market. -/
def Market.total_pool (m : Market) : Int :=
  (m.bets.map Bet.amount).sum

/-- The winning bets (`winners` local in `_resolve_market`). -/
def winnersOf (m : Market) (winning_idx : Nat) : List Bet :=
  m.bets.filter (fun b => b.option_index == winning_idx)

/-- `winners_total` local in `_resolve_market`. -/
def winnersTotal (m : Market) (winning_idx : Nat) : Int :=
  ((winnersOf m winning_idx).map Bet.amount).sum

/-- The floored pro-rata payouts in original stake order: the `payouts` list
as built by the first loop of `_resolve_market`
(`payout = (bet.amount * total_pool) // winners_total`). -/
def basePayouts (m : Market) (winning_idx : Nat) : List (String × Int) :=
  (winnersOf m winning_idx).map
    (fun b => (b.user, b.amount * m.total_pool / winnersTotal m winning_idx))

/-- Insert an element into a payout list, placing it before the first element
whose payout is ≤ its own.  Folding this over the list (`sortPayoutsDesc`)
yields the unique stable descending sort by payout, the documented behaviour
of Python's stable `payouts.sort(key=lambda item: item[1], reverse=True)` in
`_resolve_market`. -/
def insertPayoutDesc (x : String × Int) : List (String × Int) → List (String × Int)
  | [] => [x]
  | y :: ys => if y.2 ≤ x.2 then x :: y :: ys else y :: insertPayoutDesc x ys

/-- Stable descending sort by payout (see `insertPayoutDesc`). -/
def sortPayoutsDesc : List (String × Int) → List (String × Int)
  | [] => []
  | x :: xs => insertPayoutDesc x (sortPayoutsDesc xs)

/-- `payouts[i] = (user, payout + 1)`: add one unit to the payout stored at
index `i` (out-of-range indices leave the list unchanged; the loop below only
uses in-range indices). -/
def bump : List (String × Int) → Nat → List (String × Int)
  | [], _ => []
  | x :: xs, 0 => (x.1, x.2 + 1) :: xs
  | x :: xs, i + 1 => x :: bump xs i

/-- The `while remainder > 0 and payouts:` loop of `_resolve_market`, with the
number of remaining iterations as fuel: the loop decrements `remainder` by
exactly 1 per iteration, so it runs exactly `remainder.toNat` times (or stops
early only when `payouts` is empty). -/
def distributeGo : List (String × Int) → Nat → Nat → List (String × Int)
  | ps, 0, _ => ps
  | [], _ + 1, _ => []
  | p :: ps, r + 1, idx =>
    distributeGo (bump (p :: ps) (idx % (p :: ps).length)) r (idx + 1)

/-- Round-robin distribution of the leftover points (`remainder` is the Python
`int` value `total_pool - sum(floored payouts)`). -/
def distributeRemainder (ps : List (String × Int)) (remainder : Int) (idx : Nat) :
    List (String × Int) :=
  distributeGo ps remainder.toNat idx

/-- The full payout list `_resolve_market` credits in the normal
(`winners_total != 0`) case: floored payouts, stably sorted descending by
payout, remainder distributed round-robin starting at index 0. -/
def settlePayouts (m : Market) (winning_idx : Nat) : List (String × Int) :=
  distributeRemainder (sortPayoutsDesc (basePayouts m winning_idx))
    (m.total_pool - ((basePayouts m winning_idx).map Prod.snd).sum) 0

/-- `self.users[bet.user]["balance"] += bet.amount` for every bet: the refund
loops of `_resolve_market` (degenerate case) and `_cmd_cancel`, which are
textually identical in the source. -/
def refundBets (users : List (String × Account)) (bets : List Bet) :
    List (String × Account) :=
  bets.foldl
    (fun us b => updateVal us b.user
      (fun a => { a with balance := a.balance + b.amount }))
    users

/-- The payout-application loop of `_resolve_market`: credit each payout to
the balance and add it to `lifetime_winnings`. -/
def creditPayouts (users : List (String × Account)) (payouts : List (String × Int)) :
    List (String × Account) :=
  payouts.foldl
    (fun us p => updateVal us p.1
      (fun a => { a with balance := a.balance + p.2,
                         lifetime_winnings := a.lifetime_winnings + p.2 }))
    users

/-- `PredictionMarketBot._resolve_market`, acting on the users dict and the
market (returned instead of mutated in place). -/
def resolveMarket (users : List (String × Account)) (m : Market) (winning_idx : Nat) :
    List (String × Account) × Market :=
  if winnersTotal m winning_idx = 0 then
    (refundBets users m.bets,
     { m with status := "resolved", winning_option := some winning_idx })
  else
    (creditPayouts users (settlePayouts m winning_idx),
     { m with status := "resolved", winning_option := some winning_idx })

/-- The bot's mutable state: `self.users`, `self.markets`,
`self.next_market_id`, `self.starting_balance`. -/
structure BotState where
  users : List (String × Account)
  markets : List (Nat × Market)
  next_market_id : Nat
  starting_balance : Int
deriving Repr, DecidableEq

/-- Structured commands, as produced by the (excluded) text adapter.
`openMarket` carries the question and the stripped pipe-separated segments
after it (an argline without `|` yields no segments); `bet` and `resolve`
carry the user-supplied 1-based option number and the amount as parsed
integers; `query` stands for every read-only or unknown command (help,
markets, market, balance, leaderboard, portfolio, stats), which mutates no
state beyond account auto-creation. -/
inductive Cmd where
  | openMarket (question : String) (segments : List String)
  | bet (mid : Nat) (optionRaw : Int) (amountRaw : Int)
  | resolve (mid : Nat) (optionRaw : Int)
  | cancel (mid : Nat)
  | query
deriving Repr, DecidableEq

/-- Structured replies, abstracting the source's reply strings:
`errUsage` for usage messages, `errInvalidMarket` for the three market
validation failures of `_cmd_open` (empty question, fewer than two options,
option longer than 40 characters), `errClosed` for "Market ... is (already)
..." on a non-open market, and so on. -/
inductive Resp where
  | created (mid : Nat)
  | betAccepted
  | resolvedOk
  | cancelledOk
  | queryOk
  | errUsage
  | errInvalidMarket
  | errNotFound
  | errClosed
  | errInvalidOption
  | errInvalidAmount
  | errInsufficientFunds
deriving Repr, DecidableEq

/-- The fresh account dict built by `_ensure_user`. -/
def newAccount (starting_balance : Int) : Account :=
  { balance := starting_balance, lifetime_winnings := 0,
    markets_created := 0, bets_placed := 0 }

/-- `_ensure_user`. -/
def ensureUser (st : BotState) (user : String) : BotState :=
  if (lookupVal st.users user).isSome then st
  else { st with users := st.users ++ [(user, newAccount st.starting_balance)] }

/-- `self.users[user]`: present whenever reached, because `process_command`
runs `_ensure_user` first; the default value is never used. -/
def getAccount (users : List (String × Account)) (user : String) : Account :=
  (lookupVal users user).getD (newAccount 0)

/-- `_cmd_open`.  `segments` are the stripped `|`-split pieces of the argline
after the question; the source filters out empty segments before validating
the option count and lengths. -/
def cmdOpen (st : BotState) (user : String) (question : String)
    (segments : List String) : BotState × Resp :=
  if segments.isEmpty then (st, Resp.errUsage)
  else
    let options := segments.filter (fun o => o ≠ "")
    if question = "" then (st, Resp.errInvalidMarket)
    else if options.length < 2 then (st, Resp.errInvalidMarket)
    else if options.any (fun o => 40 < o.length) then (st, Resp.errInvalidMarket)
    else
      let mid := st.next_market_id
      let market : Market :=
        { market_id := mid, question := question, creator := user,
          options := options, status := "open", bets := [], winning_option := none }
      ({ st with
          markets := st.markets ++ [(mid, market)],
          next_market_id := st.next_market_id + 1,
          users := updateVal st.users user
            (fun a => { a with markets_created := a.markets_created + 1 }) },
       Resp.created mid)

/-- `_cmd_bet` (with the market id, option number and amount already parsed;
the source's `int(...)` parse failures are adapter-level usage errors). -/
def cmdBet (st : BotState) (user : String) (mid : Nat) (optionRaw amountRaw : Int) :
    BotState × Resp :=
  match lookupVal st.markets mid with
  | none => (st, Resp.errNotFound)
  | some market =>
    if market.status ≠ "open" then (st, Resp.errClosed)
    else if optionRaw - 1 < 0 ∨ (market.options.length : Int) ≤ optionRaw - 1 then
      (st, Resp.errInvalidOption)
    else if amountRaw ≤ 0 then (st, Resp.errInvalidAmount)
    else if (getAccount st.users user).balance < amountRaw then
      (st, Resp.errInsufficientFunds)
    else
      ({ st with
          users := updateVal st.users user
            (fun a => { a with balance := a.balance - amountRaw,
                               bets_placed := a.bets_placed + 1 }),
          markets := updateVal st.markets mid
            (fun m => { m with bets := m.bets ++
              [{ user := user, option_index := (optionRaw - 1).toNat,
                 amount := amountRaw }] }) },
       Resp.betAccepted)

/-- `_cmd_resolve`. -/
def cmdResolve (st : BotState) (user : String) (mid : Nat) (optionRaw : Int) :
    BotState × Resp :=
  match lookupVal st.markets mid with
  | none => (st, Resp.errNotFound)
  | some market =>
    if market.status ≠ "open" then (st, Resp.errClosed)
    else if optionRaw - 1 < 0 ∨ (market.options.length : Int) ≤ optionRaw - 1 then
      (st, Resp.errInvalidOption)
    else
      ({ st with
          users := (resolveMarket st.users market (optionRaw - 1).toNat).1,
          markets := updateVal st.markets mid
            (fun _ => (resolveMarket st.users market (optionRaw - 1).toNat).2) },
       Resp.resolvedOk)

/-- `_cmd_cancel` (with the market id already parsed; an empty id argument is
an adapter-level usage error). -/
def cmdCancel (st : BotState) (user : String) (mid : Nat) : BotState × Resp :=
  match lookupVal st.markets mid with
  | none => (st, Resp.errNotFound)
  | some market =>
    if market.status ≠ "open" then (st, Resp.errClosed)
    else
      ({ st with
          users := refundBets st.users market.bets,
          markets := updateVal st.markets mid
            (fun m => { m with status := "cancelled" }) },
       Resp.cancelledOk)

/-- `process_command`, restricted to the structured commands above.  The
sender's account is created (if absent) before dispatch, even when the
command itself fails. -/
def processCommand (st : BotState) (user : String) (cmd : Cmd) : BotState × Resp :=
  if user = "" then (st, Resp.errUsage)
  else
    match cmd with
    | Cmd.openMarket q segs => cmdOpen (ensureUser st user) user q segs
    | Cmd.bet mid o a => cmdBet (ensureUser st user) user mid o a
    | Cmd.resolve mid o => cmdResolve (ensureUser st user) user mid o
    | Cmd.cancel mid => cmdCancel (ensureUser st user) user mid
    | Cmd.query => (ensureUser st user, Resp.queryOk)

/-- The freshly constructed bot state (no prior snapshot). -/
def initState (starting_balance : Int) : BotState :=
  { users := [], markets := [], next_market_id := 1,
    starting_balance := starting_balance }

/-- Process a sequence of `(sender, command)` pairs from the fresh state. -/
def runCommands (starting_balance : Int) (cmds : List (String × Cmd)) : BotState :=
  cmds.foldl (fun st uc => (processCommand st uc.1 uc.2).1) (initState starting_balance)

/-- Sum of all account balances. -/
def balancesSum (users : List (String × Account)) : Int :=
  (users.map (fun p => p.2.balance)).sum

/-- A market's escrowed currency: its pool while open, 0 once settled
(settlement returns the pool to balances). -/
def marketContribution (m : Market) : Int :=
  if m.status = "open" then m.total_pool else 0

/-- Total currency escrowed in open markets. -/
def openPoolsSum (markets : List (Nat × Market)) : Int :=
  (markets.map (fun p => marketContribution p.2)).sum

/-- Written from the spec's remainder-distribution clause: distributing `r`
units "one unit at a time, round-robin starting from the largest payout" over
a descending-sorted list longer than `r` gives one extra unit to each of the
first `r` entries. -/
def addOneToFirst : Nat → List (String × Int) → List (String × Int)
  | _, [] => []
  | 0, l => l
  | r + 1, x :: l => (x.1, x.2 + 1) :: addOneToFirst r l

/-- The reachable-state invariant of the bot: duplicate-free dict keys,
positive recorded stakes placed by known users, market ids below the id
counter, non-negative balances (whenever the starting allotment is
non-negative), and global currency conservation. -/
structure WF (st : BotState) : Prop where
  users_nodup : (st.users.map Prod.fst).Nodup
  markets_nodup : (st.markets.map Prod.fst).Nodup
  balances_nonneg : 0 ≤ st.starting_balance → ∀ p ∈ st.users, 0 ≤ p.2.balance
  bets_pos : ∀ p ∈ st.markets, ∀ b ∈ p.2.bets, 0 < b.amount
  bettors_present : ∀ p ∈ st.markets, ∀ b ∈ p.2.bets,
    (lookupVal st.users b.user).isSome = true
  ids_bound : ∀ p ∈ st.markets, p.1 < st.next_market_id
  conservation : balancesSum st.users + openPoolsSum st.markets
    = st.starting_balance * st.users.length

/-- Concrete fixture: four accounts at the starting allotment. -/
def exampleUsers : List (String × Account) :=
  [("u1", ⟨1000, 0, 0, 0⟩), ("u2", ⟨1000, 0, 0, 0⟩),
   ("u3", ⟨1000, 0, 0, 0⟩), ("u4", ⟨1000, 0, 0, 0⟩)]

/-- Concrete fixture: a market with three winning stakes of 10 and pool 100,
so `winners_total` (30) does not divide `total_pool` (100). -/
def exampleMarket : Market :=
  { market_id := 1, question := "q", creator := "u1", options := ["A", "B"],
    status := "open",
    bets := [⟨"u1", 0, 10⟩, ⟨"u2", 0, 10⟩, ⟨"u3", 0, 10⟩, ⟨"u4", 1, 70⟩],
    winning_option := none }

/-- Concrete fixture: a market whose outcome 0 has zero stakes. -/
def exampleMarketNoWinners : Market :=
  { market_id := 2, question := "q", creator := "u1", options := ["A", "B"],
    status := "open", bets := [⟨"u1", 1, 50⟩, ⟨"u2", 1, 30⟩],
    winning_option := none }

/-- Concrete fixture: a state holding one already-resolved market. -/
def exampleResolvedState : BotState :=
  { users := exampleUsers,
    markets := [(1,
      { market_id := 1, question := "q", creator := "u1",
        options := ["A", "B"], status := "resolved", bets := [⟨"u1", 0, 10⟩],
        winning_option := some 0 })],
    next_market_id := 2, starting_balance := 1000 }

/-- The command sequence of the specification's worked example. -/
def exampleCmds : List (String × Cmd) :=
  [("user1", Cmd.openMarket "Will it rain?" ["A", "B"]),
   ("user1", Cmd.bet 1 1 300),
   ("user2", Cmd.bet 1 1 100),
   ("user3", Cmd.bet 1 2 200),
   ("user1", Cmd.resolve 1 1)]

/-! ### Association-list lemmas -/

theorem map_fst_updateVal {κ α : Type} [DecidableEq κ] (l : List (κ × α)) (k : κ)
    (f : α → α) : (updateVal l k f).map Prod.fst = l.map Prod.fst := by
  unfold updateVal
  rw [List.map_map]
  apply List.map_congr_left
  intro p _
  by_cases h : p.1 = k <;> simp [h]

theorem lookupVal_eq_none_iff {κ α : Type} [DecidableEq κ] (l : List (κ × α)) (k : κ) :
    lookupVal l k = none ↔ k ∉ l.map Prod.fst := by
  induction l with
  | nil => simp [lookupVal]
  | cons p ps ih =>
    rw [List.map_cons, List.mem_cons]
    by_cases h : p.1 = k
    · simp only [lookupVal, if_pos h]
      constructor
      · intro hc; exact Option.noConfusion hc
      · intro hc; exact (hc (Or.inl h.symm)).elim
    · simp only [lookupVal, if_neg h]
      rw [ih]
      constructor
      · intro hn hc
        rcases hc with hc | hc
        · exact h hc.symm
        · exact hn hc
      · intro hn hc
        exact hn (Or.inr hc)

theorem lookupVal_of_mem_nodup {κ α : Type} [DecidableEq κ] {l : List (κ × α)}
    (hnd : (l.map Prod.fst).Nodup) {p : κ × α} (hp : p ∈ l) :
    lookupVal l p.1 = some p.2 := by
  induction l with
  | nil => cases hp
  | cons q qs ih =>
    rw [List.map_cons] at hnd
    have hnd2 := List.nodup_cons.mp hnd
    rcases List.mem_cons.mp hp with h | h
    · subst h
      simp [lookupVal]
    · have hq : q.1 ≠ p.1 := by
        intro he
        exact hnd2.1 (he ▸ List.mem_map_of_mem Prod.fst h)
      simp only [lookupVal, if_neg hq]
      exact ih hnd2.2 h

theorem lookupVal_mem {κ α : Type} [DecidableEq κ] {l : List (κ × α)} {k : κ} {v : α}
    (h : lookupVal l k = some v) : (k, v) ∈ l := by
  induction l with
  | nil => cases h
  | cons p ps ih =>
    by_cases hp : p.1 = k
    · simp only [lookupVal, if_pos hp] at h
      injection h with h2
      subst hp
      subst h2
      exact List.mem_cons_self p ps
    · simp only [lookupVal, if_neg hp] at h
      exact List.mem_cons_of_mem _ (ih h)

theorem lookupVal_updateVal_eq {κ α : Type} [DecidableEq κ] (l : List (κ × α)) (k : κ)
    (f : α → α) : lookupVal (updateVal l k f) k = (lookupVal l k).map f := by
  induction l with
  | nil => rfl
  | cons p ps ih =>
    by_cases h : p.1 = k <;> simp [updateVal, lookupVal, h] <;>
      simpa [updateVal] using ih

theorem lookupVal_updateVal_ne {κ α : Type} [DecidableEq κ] (l : List (κ × α)) (k u : κ)
    (f : α → α) (h : u ≠ k) : lookupVal (updateVal l k f) u = lookupVal l u := by
  induction l with
  | nil => rfl
  | cons p ps ih =>
    show lookupVal ((if p.1 = k then (p.1, f p.2) else p) :: updateVal ps k f) u = _
    by_cases hp : p.1 = k
    · have hpu : p.1 ≠ u := fun he => h (he.symm.trans hp)
      rw [if_pos hp]
      simp only [lookupVal, if_neg hpu]
      exact ih
    · rw [if_neg hp]
      by_cases hu : p.1 = u
      · simp only [lookupVal, if_pos hu]
      · simp only [lookupVal, if_neg hu]
        exact ih

theorem lookupVal_updateVal_isSome {κ α : Type} [DecidableEq κ] (l : List (κ × α))
    (k u : κ) (f : α → α) :
    (lookupVal (updateVal l k f) u).isSome = (lookupVal l u).isSome := by
  by_cases h : u = k
  · subst h; rw [lookupVal_updateVal_eq]; cases lookupVal l u <;> rfl
  · rw [lookupVal_updateVal_ne _ _ _ _ h]

theorem updateVal_of_not_mem {κ α : Type} [DecidableEq κ] {l : List (κ × α)} {k : κ}
    (f : α → α) (h : k ∉ l.map Prod.fst) : updateVal l k f = l := by
  unfold updateVal
  have hc : ∀ p ∈ l, (if p.1 = k then (p.1, f p.2) else p) = id p := by
    intro p hp
    have hne : p.1 ≠ k := fun he => h (he ▸ List.mem_map_of_mem Prod.fst hp)
    simp [hne]
  rw [List.map_congr_left hc, List.map_id]

theorem lookupVal_append_some {κ α : Type} [DecidableEq κ] {l : List (κ × α)} {k : κ}
    {v : α} (l2 : List (κ × α)) (h : lookupVal l k = some v) :
    lookupVal (l ++ l2) k = some v := by
  induction l with
  | nil => cases h
  | cons p ps ih =>
    by_cases hp : p.1 = k
    · simp only [lookupVal, if_pos hp] at h ⊢
      exact h
    · simp only [lookupVal, if_neg hp] at h ⊢
      exact ih h

theorem lookupVal_append_none {κ α : Type} [DecidableEq κ] {l : List (κ × α)} {k : κ}
    (v : α) (h : lookupVal l k = none) :
    lookupVal (l ++ [(k, v)]) k = some v := by
  induction l with
  | nil => simp [lookupVal]
  | cons p ps ih =>
    by_cases hp : p.1 = k
    · simp only [lookupVal, if_pos hp] at h
      exact Option.noConfusion h
    · simp only [lookupVal, if_neg hp] at h ⊢
      exact ih h

theorem lookupVal_append_singleton_ne {κ α : Type} [DecidableEq κ] (l : List (κ × α))
    {k u : κ} (v : α) (h : u ≠ k) :
    lookupVal (l ++ [(k, v)]) u = lookupVal l u := by
  induction l with
  | nil =>
    have hk : ¬(k = u) := fun he => h he.symm
    simp only [List.nil_append, lookupVal, if_neg hk]
  | cons p ps ih =>
    by_cases hp : p.1 = u
    · simp only [List.cons_append, lookupVal, if_pos hp]
    · simp only [List.cons_append, lookupVal, if_neg hp]
      exact ih

/-- Generic accounting lemma: updating one present key of a dict with
duplicate-free keys changes a value-sum by the delta at that key. -/
theorem sum_map_updateVal {κ α : Type} [DecidableEq κ] (g : α → Int)
    {l : List (κ × α)} {k : κ} (f : α → α) {v : α}
    (hnd : (l.map Prod.fst).Nodup) (hv : lookupVal l k = some v) :
    ((updateVal l k f).map (fun p => g p.2)).sum
      = (l.map (fun p => g p.2)).sum + (g (f v) - g v) := by
  induction l with
  | nil => cases hv
  | cons p ps ih =>
    rw [List.map_cons] at hnd
    have hnd2 := List.nodup_cons.mp hnd
    show ((((if p.1 = k then (p.1, f p.2) else p)) :: updateVal ps k f).map
      (fun p => g p.2)).sum = _
    by_cases hp : p.1 = k
    · rw [if_pos hp]
      simp only [lookupVal, if_pos hp] at hv
      injection hv with hv2
      subst hv2
      have hnk : k ∉ ps.map Prod.fst := hp ▸ hnd2.1
      rw [updateVal_of_not_mem f hnk]
      simp only [List.map_cons, List.sum_cons]
      ring
    · rw [if_neg hp]
      simp only [lookupVal, if_neg hp] at hv
      simp only [List.map_cons, List.sum_cons, ih hnd2.2 hv]
      ring

theorem mem_updateVal {κ α : Type} [DecidableEq κ] {l : List (κ × α)} {k : κ}
    {f : α → α} {p : κ × α} (h : p ∈ updateVal l k f) :
    p ∈ l ∨ ∃ q ∈ l, q.1 = k ∧ p = (q.1, f q.2) := by
  unfold updateVal at h
  rcases List.mem_map.mp h with ⟨q, hq, he⟩
  by_cases hk : q.1 = k
  · rw [if_pos hk] at he
    exact Or.inr ⟨q, hq, hk, he.symm⟩
  · rw [if_neg hk] at he
    exact Or.inl (he ▸ hq)

theorem lookupVal_isSome_iff {κ α : Type} [DecidableEq κ] (l : List (κ × α)) (k : κ) :
    (lookupVal l k).isSome = true ↔ k ∈ l.map Prod.fst := by
  constructor
  · intro h
    by_contra hc
    rw [(lookupVal_eq_none_iff l k).mpr hc] at h
    cases h
  · intro h
    cases hv : lookupVal l k with
    | none => exact absurd h ((lookupVal_eq_none_iff l k).mp hv)
    | some _ => rfl

theorem length_updateVal {κ α : Type} [DecidableEq κ] (l : List (κ × α)) (k : κ)
    (f : α → α) : (updateVal l k f).length = l.length :=
  List.length_map l _

/-! ### Refund / credit fold lemmas -/

theorem refundBets_nil (users : List (String × Account)) :
    refundBets users [] = users := rfl

theorem refundBets_cons (users : List (String × Account)) (b : Bet) (bs : List Bet) :
    refundBets users (b :: bs) =
      refundBets (updateVal users b.user
        (fun a => { a with balance := a.balance + b.amount })) bs := rfl

theorem creditPayouts_nil (users : List (String × Account)) :
    creditPayouts users [] = users := rfl

theorem creditPayouts_cons (users : List (String × Account)) (p : String × Int)
    (ps : List (String × Int)) :
    creditPayouts users (p :: ps) =
      creditPayouts (updateVal users p.1
        (fun a => { a with balance := a.balance + p.2,
                           lifetime_winnings := a.lifetime_winnings + p.2 })) ps := rfl

theorem map_fst_refundBets (users : List (String × Account)) (bets : List Bet) :
    (refundBets users bets).map Prod.fst = users.map Prod.fst := by
  induction bets generalizing users with
  | nil => rfl
  | cons b bs ih => rw [refundBets_cons, ih, map_fst_updateVal]

theorem map_fst_creditPayouts (users : List (String × Account))
    (ps : List (String × Int)) :
    (creditPayouts users ps).map Prod.fst = users.map Prod.fst := by
  induction ps generalizing users with
  | nil => rfl
  | cons p ps ih => rw [creditPayouts_cons, ih, map_fst_updateVal]

theorem lookupVal_refundBets (users : List (String × Account)) (bets : List Bet)
    (u : String) :
    lookupVal (refundBets users bets) u =
      (lookupVal users u).map (fun a =>
        { a with balance := a.balance +
            ((bets.filter (fun b => b.user == u)).map Bet.amount).sum }) := by
  induction bets generalizing users with
  | nil =>
    rw [refundBets_nil]
    cases lookupVal users u <;> simp
  | cons b bs ih =>
    rw [refundBets_cons, ih]
    by_cases hu : b.user = u
    · rw [hu, lookupVal_updateVal_eq]
      have hfil : (b :: bs).filter (fun b => b.user == u) =
          b :: bs.filter (fun b => b.user == u) := by
        simp [List.filter_cons, hu]
      rw [hfil]
      cases lookupVal users u with
      | none => rfl
      | some a =>
        simp only [Option.map_some']
        congr 1
        simp only [List.map_cons, List.sum_cons]
        congr 1
        ring
    · rw [lookupVal_updateVal_ne _ _ _ _ (fun he => hu he.symm)]
      have hfil : (b :: bs).filter (fun b => b.user == u) =
          bs.filter (fun b => b.user == u) := by
        simp [List.filter_cons, hu]
      rw [hfil]

theorem lookupVal_creditPayouts (users : List (String × Account))
    (ps : List (String × Int)) (u : String) :
    lookupVal (creditPayouts users ps) u =
      (lookupVal users u).map (fun a =>
        { a with
          balance := a.balance + ((ps.filter (fun p => p.1 == u)).map Prod.snd).sum,
          lifetime_winnings := a.lifetime_winnings +
            ((ps.filter (fun p => p.1 == u)).map Prod.snd).sum }) := by
  induction ps generalizing users with
  | nil =>
    rw [creditPayouts_nil]
    cases lookupVal users u <;> simp
  | cons p ps ih =>
    rw [creditPayouts_cons, ih]
    by_cases hu : p.1 = u
    · rw [hu, lookupVal_updateVal_eq]
      have hfil : (p :: ps).filter (fun q => q.1 == u) =
          p :: ps.filter (fun q => q.1 == u) := by
        simp [List.filter_cons, hu]
      rw [hfil]
      cases lookupVal users u with
      | none => rfl
      | some a =>
        simp only [Option.map_some', Option.some.injEq, List.map_cons, List.sum_cons]
        congr 1 <;> ring
    · rw [lookupVal_updateVal_ne _ _ _ _ (fun he => hu he.symm)]
      have hfil : (p :: ps).filter (fun q => q.1 == u) =
          ps.filter (fun q => q.1 == u) := by
        simp [List.filter_cons, hu]
      rw [hfil]

theorem balancesSum_nil : balancesSum [] = 0 := rfl

theorem balancesSum_append (l1 l2 : List (String × Account)) :
    balancesSum (l1 ++ l2) = balancesSum l1 + balancesSum l2 := by
  unfold balancesSum
  rw [List.map_append, List.sum_append]

theorem balancesSum_updateVal_of_balance_eq {users : List (String × Account)}
    {k : String} {f : Account → Account} (h : ∀ a, (f a).balance = a.balance) :
    balancesSum (updateVal users k f) = balancesSum users := by
  unfold balancesSum updateVal
  rw [List.map_map]
  apply congrArg List.sum
  apply List.map_congr_left
  intro p _
  by_cases hp : p.1 = k <;> simp [hp, h]

theorem balancesSum_refundBets (users : List (String × Account)) (bets : List Bet)
    (hnd : (users.map Prod.fst).Nodup)
    (hpres : ∀ b ∈ bets, (lookupVal users b.user).isSome) :
    balancesSum (refundBets users bets)
      = balancesSum users + (bets.map Bet.amount).sum := by
  induction bets generalizing users with
  | nil => simp [refundBets_nil]
  | cons b bs ih =>
    obtain ⟨v, hv⟩ := Option.isSome_iff_exists.mp (hpres b (List.mem_cons_self b bs))
    rw [refundBets_cons]
    rw [ih _ (by rw [map_fst_updateVal]; exact hnd)
      (by intro b' hb'
          rw [lookupVal_updateVal_isSome]
          exact hpres b' (List.mem_cons_of_mem _ hb'))]
    rw [show balancesSum (updateVal users b.user
        (fun a => { a with balance := a.balance + b.amount }))
      = balancesSum users + b.amount from by
        unfold balancesSum
        rw [sum_map_updateVal Account.balance _ hnd hv]
        ring]
    simp only [List.map_cons, List.sum_cons]
    ring

theorem balancesSum_creditPayouts (users : List (String × Account))
    (ps : List (String × Int))
    (hnd : (users.map Prod.fst).Nodup)
    (hpres : ∀ p ∈ ps, (lookupVal users p.1).isSome) :
    balancesSum (creditPayouts users ps)
      = balancesSum users + (ps.map Prod.snd).sum := by
  induction ps generalizing users with
  | nil => simp [creditPayouts_nil]
  | cons p ps ih =>
    obtain ⟨v, hv⟩ := Option.isSome_iff_exists.mp (hpres p (List.mem_cons_self p ps))
    rw [creditPayouts_cons]
    rw [ih _ (by rw [map_fst_updateVal]; exact hnd)
      (by intro p' hp'
          rw [lookupVal_updateVal_isSome]
          exact hpres p' (List.mem_cons_of_mem _ hp'))]
    rw [show balancesSum (updateVal users p.1
        (fun a => { a with balance := a.balance + p.2,
                           lifetime_winnings := a.lifetime_winnings + p.2 }))
      = balancesSum users + p.2 from by
        unfold balancesSum
        rw [sum_map_updateVal Account.balance _ hnd hv]
        ring]
    simp only [List.map_cons, List.sum_cons]
    ring

theorem nonneg_updateVal {users : List (String × Account)} {k : String}
    {f : Account → Account} (h : ∀ p ∈ users, 0 ≤ p.2.balance)
    (hf : ∀ a : Account, 0 ≤ a.balance → 0 ≤ (f a).balance) :
    ∀ p ∈ updateVal users k f, 0 ≤ p.2.balance := by
  intro p hp
  rcases mem_updateVal hp with h1 | ⟨q, hq, he⟩
  · exact h p h1
  · rw [he.2]
    exact hf q.2 (h q hq)

theorem nonneg_refundBets {users : List (String × Account)} {bets : List Bet}
    (h : ∀ p ∈ users, 0 ≤ p.2.balance) (hamt : ∀ b ∈ bets, 0 ≤ b.amount) :
    ∀ p ∈ refundBets users bets, 0 ≤ p.2.balance := by
  induction bets generalizing users with
  | nil => exact h
  | cons b bs ih =>
    rw [refundBets_cons]
    apply ih
    · apply nonneg_updateVal h
      intro a ha
      exact add_nonneg ha (hamt b (List.mem_cons_self b bs))
    · intro b' hb'
      exact hamt b' (List.mem_cons_of_mem _ hb')

theorem nonneg_creditPayouts {users : List (String × Account)}
    {ps : List (String × Int)} (h : ∀ p ∈ users, 0 ≤ p.2.balance)
    (hamt : ∀ p ∈ ps, 0 ≤ p.2) :
    ∀ p ∈ creditPayouts users ps, 0 ≤ p.2.balance := by
  induction ps generalizing users with
  | nil => exact h
  | cons p ps ih =>
    rw [creditPayouts_cons]
    apply ih
    · apply nonneg_updateVal h
      intro a ha
      exact add_nonneg ha (hamt p (List.mem_cons_self p ps))
    · intro p' hp'
      exact hamt p' (List.mem_cons_of_mem _ hp')

/-! ### Sorting lemmas: permutation, descending order, stability -/

theorem insertPayoutDesc_perm (x : String × Int) (l : List (String × Int)) :
    (insertPayoutDesc x l).Perm (x :: l) := by
  induction l with
  | nil => exact List.Perm.refl _
  | cons y ys ih =>
    unfold insertPayoutDesc
    by_cases h : y.2 ≤ x.2
    · rw [if_pos h]
    · rw [if_neg h]
      exact (ih.cons y).trans (List.Perm.swap x y ys)

theorem sortPayoutsDesc_perm (l : List (String × Int)) :
    (sortPayoutsDesc l).Perm l := by
  induction l with
  | nil => exact List.Perm.refl _
  | cons x xs ih =>
    exact (insertPayoutDesc_perm x (sortPayoutsDesc xs)).trans (ih.cons x)

theorem mem_insertPayoutDesc {x y : String × Int} {l : List (String × Int)} :
    y ∈ insertPayoutDesc x l ↔ y = x ∨ y ∈ l := by
  rw [(insertPayoutDesc_perm x l).mem_iff, List.mem_cons]

theorem insertPayoutDesc_pairwise {l : List (String × Int)}
    (h : l.Pairwise (fun p q => q.2 ≤ p.2)) (x : String × Int) :
    (insertPayoutDesc x l).Pairwise (fun p q => q.2 ≤ p.2) := by
  induction l with
  | nil => simp [insertPayoutDesc]
  | cons y ys ih =>
    rcases List.pairwise_cons.mp h with ⟨hy, hys⟩
    unfold insertPayoutDesc
    by_cases hc : y.2 ≤ x.2
    · rw [if_pos hc]
      apply List.pairwise_cons.mpr
      refine ⟨?_, h⟩
      intro z hz
      rcases List.mem_cons.mp hz with rfl | hz
      · exact hc
      · exact le_trans (hy z hz) hc
    · rw [if_neg hc]
      apply List.pairwise_cons.mpr
      refine ⟨?_, ih hys⟩
      intro z hz
      rcases mem_insertPayoutDesc.mp hz with rfl | hz
      · exact (not_le.mp hc).le
      · exact hy z hz

theorem sortPayoutsDesc_pairwise (l : List (String × Int)) :
    (sortPayoutsDesc l).Pairwise (fun p q => q.2 ≤ p.2) := by
  induction l with
  | nil => simp [sortPayoutsDesc]
  | cons x xs ih => exact insertPayoutDesc_pairwise ih x

theorem filter_insertPayoutDesc_eq (x : String × Int) (l : List (String × Int)) :
    (insertPayoutDesc x l).filter (fun p => p.2 = x.2)
      = x :: l.filter (fun p => p.2 = x.2) := by
  induction l with
  | nil => simp [insertPayoutDesc]
  | cons y ys ih =>
    unfold insertPayoutDesc
    by_cases hc : y.2 ≤ x.2
    · rw [if_pos hc]
      rw [List.filter_cons_of_pos (by simp)]
    · rw [if_neg hc]
      have hy : ¬(y.2 = x.2) := fun he => hc (le_of_eq he)
      rw [List.filter_cons_of_neg (by simp [hy]), ih,
        List.filter_cons_of_neg (by simp [hy])]

theorem filter_insertPayoutDesc_ne (x : String × Int) (l : List (String × Int))
    {v : Int} (hv : x.2 ≠ v) :
    (insertPayoutDesc x l).filter (fun p => p.2 = v)
      = l.filter (fun p => p.2 = v) := by
  induction l with
  | nil => simp [insertPayoutDesc, hv]
  | cons y ys ih =>
    unfold insertPayoutDesc
    by_cases hc : y.2 ≤ x.2
    · rw [if_pos hc]
      rw [List.filter_cons_of_neg (by simp [hv])]
    · rw [if_neg hc]
      by_cases hy : y.2 = v
      · rw [List.filter_cons_of_pos (by simp [hy]), ih,
          List.filter_cons_of_pos (by simp [hy])]
      · rw [List.filter_cons_of_neg (by simp [hy]), ih,
          List.filter_cons_of_neg (by simp [hy])]

/-- Stability of the sort: for every payout value, the sub-list of entries
carrying that value is preserved in its original relative order. -/
theorem sortPayoutsDesc_filter_eq (l : List (String × Int)) (v : Int) :
    (sortPayoutsDesc l).filter (fun p => p.2 = v)
      = l.filter (fun p => p.2 = v) := by
  induction l with
  | nil => rfl
  | cons x xs ih =>
    show (insertPayoutDesc x (sortPayoutsDesc xs)).filter _ = _
    by_cases hv : x.2 = v
    · subst hv
      rw [filter_insertPayoutDesc_eq, ih, List.filter_cons_of_pos (by simp)]
    · rw [filter_insertPayoutDesc_ne x _ hv, ih,
        List.filter_cons_of_neg (by simp [hv])]

/-! ### Remainder-distribution lemmas -/

theorem addOneToFirst_zero (l : List (String × Int)) : addOneToFirst 0 l = l := by
  cases l <;> rfl

theorem addOneToFirst_length (r : Nat) (l : List (String × Int)) :
    (addOneToFirst r l).length = l.length := by
  induction l generalizing r with
  | nil => cases r <;> rfl
  | cons x xs ih =>
    cases r with
    | zero => rfl
    | succ r => simp only [addOneToFirst, List.length_cons, ih]

theorem addOneToFirst_sum (r : Nat) (l : List (String × Int)) (h : r ≤ l.length) :
    ((addOneToFirst r l).map Prod.snd).sum = (l.map Prod.snd).sum + r := by
  induction l generalizing r with
  | nil =>
    rw [Nat.le_zero.mp h]
    simp [addOneToFirst]
  | cons x xs ih =>
    cases r with
    | zero => simp [addOneToFirst_zero]
    | succ r =>
      have h2 : r ≤ xs.length := Nat.succ_le_succ_iff.mp h
      simp only [addOneToFirst, List.map_cons, List.sum_cons, ih r h2]
      push_cast
      ring

theorem mem_addOneToFirst {r : Nat} {l : List (String × Int)} {p : String × Int}
    (hp : p ∈ addOneToFirst r l) : ∃ q ∈ l, p.1 = q.1 ∧ q.2 ≤ p.2 := by
  induction l generalizing r with
  | nil =>
    cases r <;> cases hp
  | cons x xs ih =>
    cases r with
    | zero =>
      rw [addOneToFirst_zero] at hp
      exact ⟨p, hp, rfl, le_refl _⟩
    | succ r =>
      simp only [addOneToFirst] at hp
      rcases List.mem_cons.mp hp with rfl | hp
      · exact ⟨x, List.mem_cons_self x xs, rfl, by simp⟩
      · obtain ⟨q, hq, h1, h2⟩ := ih hp
        exact ⟨q, List.mem_cons_of_mem _ hq, h1, h2⟩

theorem bump_eq (l : List (String × Int)) (i : Nat) (h : i < l.length) :
    bump l i = l.take i
      ++ ((l.get ⟨i, h⟩).1, (l.get ⟨i, h⟩).2 + 1) :: l.drop (i + 1) := by
  induction l generalizing i with
  | nil => cases h
  | cons x xs ih =>
    cases i with
    | zero => rfl
    | succ i =>
      have h2 : i < xs.length := Nat.succ_lt_succ_iff.mp h
      show x :: bump xs i = x :: _
      exact congrArg (x :: ·) (ih i h2)

theorem distributeGo_eq (r : Nat) :
    ∀ (i : Nat) (ps : List (String × Int)), i + r ≤ ps.length →
      distributeGo ps r i = ps.take i ++ addOneToFirst r (ps.drop i) := by
  induction r with
  | zero =>
    intro i ps _
    rw [show distributeGo ps 0 i = ps from by cases ps <;> rfl, addOneToFirst_zero,
      List.take_append_drop]
  | succ r ih =>
    intro i ps h
    match ps with
    | [] => simp at h
    | p :: ps' =>
      have hi : i < (p :: ps').length := by
        simp only [List.length_cons] at h ⊢
        omega
      have hstep : distributeGo (p :: ps') (r + 1) i
          = distributeGo (bump (p :: ps') (i % (p :: ps').length)) r (i + 1) := rfl
      rw [hstep, Nat.mod_eq_of_lt hi, bump_eq _ _ hi]
      have htk : ((p :: ps').take i).length = i := by
        rw [List.length_take]
        omega
      have hlen : ((p :: ps').take i
          ++ (((p :: ps').get ⟨i, hi⟩).1, ((p :: ps').get ⟨i, hi⟩).2 + 1)
            :: (p :: ps').drop (i + 1)).length = (p :: ps').length := by
        simp only [List.length_append, List.length_cons, List.length_drop, htk]
        simp only [List.length_cons] at hi ⊢
        omega
      rw [ih (i + 1) _ (by rw [hlen]; omega)]
      have h1 : ((p :: ps').take i
          ++ (((p :: ps').get ⟨i, hi⟩).1, ((p :: ps').get ⟨i, hi⟩).2 + 1)
            :: (p :: ps').drop (i + 1)).take (i + 1)
          = (p :: ps').take i
            ++ [(((p :: ps').get ⟨i, hi⟩).1, ((p :: ps').get ⟨i, hi⟩).2 + 1)] := by
        rw [show i + 1 = ((p :: ps').take i).length + 1 from by rw [htk]]
        rw [List.take_append]
        rfl
      have h2 : ((p :: ps').take i
          ++ (((p :: ps').get ⟨i, hi⟩).1, ((p :: ps').get ⟨i, hi⟩).2 + 1)
            :: (p :: ps').drop (i + 1)).drop (i + 1)
          = (p :: ps').drop (i + 1) := by
        rw [show i + 1 = ((p :: ps').take i).length + 1 from by rw [htk]]
        rw [List.drop_append]
        rfl
      rw [h1, h2]
      rw [List.drop_eq_getElem_cons hi]
      show _ = (p :: ps').take i
        ++ addOneToFirst (r + 1) ((p :: ps')[i] :: (p :: ps').drop (i + 1))
      simp only [addOneToFirst, List.append_assoc, List.singleton_append,
        List.get_eq_getElem]

/-! ### Payout arithmetic -/

theorem sum_map_sub_int {α : Type} (l : List α) (f g : α → Int) :
    (l.map (fun a => f a - g a)).sum = (l.map f).sum - (l.map g).sum := by
  induction l with
  | nil => simp
  | cons x xs ih =>
    simp only [List.map_cons, List.sum_cons, ih]
    ring

theorem sum_map_mul_left_int {α : Type} (l : List α) (f : α → Int) (c : Int) :
    (l.map (fun a => c * f a)).sum = c * (l.map f).sum := by
  induction l with
  | nil => simp
  | cons x xs ih =>
    simp only [List.map_cons, List.sum_cons, ih]
    ring

theorem sum_map_const_int {α : Type} (l : List α) (c : Int) :
    (l.map (fun _ => c)).sum = l.length * c := by
  induction l with
  | nil => simp
  | cons x xs ih =>
    simp only [List.map_cons, List.sum_cons, ih, List.length_cons]
    push_cast
    ring

theorem winnersTotal_pos (m : Market) (w : Nat)
    (hpos : ∀ b ∈ m.bets, 0 < b.amount) (hW : winnersTotal m w ≠ 0) :
    0 < winnersTotal m w := by
  have h0 : 0 ≤ winnersTotal m w := by
    apply List.sum_nonneg
    intro x hx
    rcases List.mem_map.mp hx with ⟨b, hb, rfl⟩
    exact (hpos b (List.mem_filter.mp hb).1).le
  exact lt_of_le_of_ne h0 (Ne.symm hW)

theorem total_pool_nonneg (m : Market) (hpos : ∀ b ∈ m.bets, 0 ≤ b.amount) :
    0 ≤ m.total_pool := by
  apply List.sum_nonneg
  intro x hx
  rcases List.mem_map.mp hx with ⟨b, hb, rfl⟩
  exact hpos b hb

theorem winnersTotal_le_total_pool (m : Market) (w : Nat)
    (hpos : ∀ b ∈ m.bets, 0 ≤ b.amount) :
    winnersTotal m w ≤ m.total_pool := by
  apply List.Sublist.sum_le_sum
  · exact List.Sublist.map Bet.amount (List.filter_sublist m.bets)
  · intro x hx
    rcases List.mem_map.mp hx with ⟨b, hb, rfl⟩
    exact hpos b hb

theorem winnersOf_ne_nil (m : Market) (w : Nat) (hW : winnersTotal m w ≠ 0) :
    winnersOf m w ≠ [] := by
  intro he
  apply hW
  unfold winnersTotal
  rw [he]
  rfl

theorem basePayout_ge_amount {a T W : Int} (ha : 0 ≤ a) (hW : 0 < W) (hTW : W ≤ T) :
    a ≤ a * T / W := by
  have h1 : a * W ≤ a * T := mul_le_mul_of_nonneg_left hTW ha
  calc a = a * W / W := (Int.mul_ediv_cancel a (ne_of_gt hW)).symm
    _ ≤ a * T / W := Int.ediv_le_ediv hW h1

theorem map_snd_basePayouts (m : Market) (w : Nat) :
    (basePayouts m w).map Prod.snd
      = (winnersOf m w).map
          (fun b => b.amount * m.total_pool / winnersTotal m w) := by
  unfold basePayouts
  rw [List.map_map]
  rfl

/-- Bounds on the sum of the floored payouts: it never exceeds the pool, and
it falls short of the pool by strictly less than the number of winners. -/
theorem basePayouts_sum_bounds (m : Market) (w : Nat)
    (hpos : ∀ b ∈ m.bets, 0 < b.amount) (hW : winnersTotal m w ≠ 0) :
    ((basePayouts m w).map Prod.snd).sum ≤ m.total_pool ∧
      m.total_pool - ((winnersOf m w).length : Int)
        < ((basePayouts m w).map Prod.snd).sum := by
  have hWpos : 0 < winnersTotal m w := winnersTotal_pos m w hpos hW
  have hE0 : (0 : Int) ≤
      ((winnersOf m w).map
        (fun b => b.amount * m.total_pool % winnersTotal m w)).sum := by
    apply List.sum_nonneg
    intro x hx
    rcases List.mem_map.mp hx with ⟨b, _, rfl⟩
    exact Int.emod_nonneg _ (ne_of_gt hWpos)
  have hE1 : ((winnersOf m w).map
        (fun b => b.amount * m.total_pool % winnersTotal m w)).sum
      ≤ ((winnersOf m w).length : Int) * (winnersTotal m w - 1) := by
    rw [← sum_map_const_int (winnersOf m w) (winnersTotal m w - 1)]
    apply List.sum_le_sum
    intro b _
    have := Int.emod_lt_of_pos (b.amount * m.total_pool) hWpos
    omega
  have hn : (1 : Int) ≤ ((winnersOf m w).length : Int) := by
    have := winnersOf_ne_nil m w hW
    have hl : 0 < (winnersOf m w).length := List.length_pos.mpr this
    exact_mod_cast hl
  have hWS : winnersTotal m w * ((basePayouts m w).map Prod.snd).sum
      = winnersTotal m w * m.total_pool
        - ((winnersOf m w).map
            (fun b => b.amount * m.total_pool % winnersTotal m w)).sum := by
    rw [map_snd_basePayouts, ← sum_map_mul_left_int]
    have hc : (winnersOf m w).map
        (fun b => winnersTotal m w * (b.amount * m.total_pool / winnersTotal m w))
        = (winnersOf m w).map
            (fun b => b.amount * m.total_pool
              - b.amount * m.total_pool % winnersTotal m w) := by
      apply List.map_congr_left
      intro b _
      have := Int.ediv_add_emod (b.amount * m.total_pool) (winnersTotal m w)
      linarith
    rw [hc, sum_map_sub_int]
    congr 1
    have hc2 : (winnersOf m w).map (fun b => b.amount * m.total_pool)
        = (winnersOf m w).map (fun b => m.total_pool * b.amount) := by
      apply List.map_congr_left
      intro b _
      ring
    rw [hc2, sum_map_mul_left_int]
    show m.total_pool * ((winnersOf m w).map (fun b => b.amount)).sum = _
    unfold winnersTotal
    ring
  constructor
  · apply le_of_mul_le_mul_left _ hWpos
    linarith
  · apply lt_of_mul_lt_mul_left _ hWpos.le
    nlinarith

/-- The code's round-robin loop, in closed form: with `winners_total != 0`,
the credited payouts are the stably sorted floored payouts with one extra
unit on each of the first `remainder` entries. -/
theorem settlePayouts_eq_addOne (m : Market) (w : Nat)
    (hpos : ∀ b ∈ m.bets, 0 < b.amount) (hW : winnersTotal m w ≠ 0) :
    settlePayouts m w
      = addOneToFirst
          (m.total_pool - ((basePayouts m w).map Prod.snd).sum).toNat
          (sortPayoutsDesc (basePayouts m w)) := by
  obtain ⟨hle, hlt⟩ := basePayouts_sum_bounds m w hpos hW
  have hlen : (sortPayoutsDesc (basePayouts m w)).length
      = (winnersOf m w).length := by
    rw [(sortPayoutsDesc_perm (basePayouts m w)).length_eq]
    unfold basePayouts
    rw [List.length_map]
  have hr : (m.total_pool - ((basePayouts m w).map Prod.snd).sum).toNat
      ≤ (sortPayoutsDesc (basePayouts m w)).length := by
    rw [hlen]
    omega
  unfold settlePayouts distributeRemainder
  rw [distributeGo_eq _ 0 _ (by omega)]
  simp

theorem settlePayouts_sum (m : Market) (w : Nat)
    (hpos : ∀ b ∈ m.bets, 0 < b.amount) (hW : winnersTotal m w ≠ 0) :
    ((settlePayouts m w).map Prod.snd).sum = m.total_pool := by
  obtain ⟨hle, hlt⟩ := basePayouts_sum_bounds m w hpos hW
  have hlen : (sortPayoutsDesc (basePayouts m w)).length
      = (winnersOf m w).length := by
    rw [(sortPayoutsDesc_perm (basePayouts m w)).length_eq]
    unfold basePayouts
    rw [List.length_map]
  rw [settlePayouts_eq_addOne m w hpos hW]
  rw [addOneToFirst_sum _ _ (by rw [hlen]; omega)]
  have hperm : ((sortPayoutsDesc (basePayouts m w)).map Prod.snd).sum
      = ((basePayouts m w).map Prod.snd).sum :=
    ((sortPayoutsDesc_perm (basePayouts m w)).map Prod.snd).sum_eq
  rw [hperm]
  omega

theorem mem_settlePayouts (m : Market) (w : Nat)
    (hpos : ∀ b ∈ m.bets, 0 < b.amount) (hW : winnersTotal m w ≠ 0)
    {p : String × Int} (hp : p ∈ settlePayouts m w) :
    ∃ b ∈ m.bets, p.1 = b.user
      ∧ b.amount * m.total_pool / winnersTotal m w ≤ p.2 := by
  rw [settlePayouts_eq_addOne m w hpos hW] at hp
  obtain ⟨q, hq, hfst, hle⟩ := mem_addOneToFirst hp
  have hq2 : q ∈ basePayouts m w :=
    (sortPayoutsDesc_perm (basePayouts m w)).mem_iff.mp hq
  rcases List.mem_map.mp hq2 with ⟨b, hb, rfl⟩
  exact ⟨b, (List.mem_filter.mp hb).1, hfst, le_trans (le_of_eq rfl) hle⟩

/-! ### Settlement-level lemmas -/

theorem settlePayouts_snd_nonneg (m : Market) (w : Nat)
    (hpos : ∀ b ∈ m.bets, 0 < b.amount) (hW : winnersTotal m w ≠ 0) :
    ∀ p ∈ settlePayouts m w, 0 ≤ p.2 := by
  intro p hp
  obtain ⟨b, hb, _, hle⟩ := mem_settlePayouts m w hpos hW hp
  have hWpos := winnersTotal_pos m w hpos hW
  have hTnn := total_pool_nonneg m (fun b hb => (hpos b hb).le)
  have h0 : 0 ≤ b.amount * m.total_pool / winnersTotal m w :=
    Int.ediv_nonneg (mul_nonneg (hpos b hb).le hTnn) hWpos.le
  linarith

theorem settlePayouts_present (users : List (String × Account)) (m : Market) (w : Nat)
    (hpos : ∀ b ∈ m.bets, 0 < b.amount) (hW : winnersTotal m w ≠ 0)
    (hpres : ∀ b ∈ m.bets, (lookupVal users b.user).isSome = true) :
    ∀ p ∈ settlePayouts m w, (lookupVal users p.1).isSome = true := by
  intro p hp
  obtain ⟨b, hb, hfst, _⟩ := mem_settlePayouts m w hpos hW hp
  rw [hfst]
  exact hpres b hb

theorem resolveMarket_snd (users : List (String × Account)) (m : Market) (w : Nat) :
    (resolveMarket users m w).2
      = { m with status := "resolved", winning_option := some w } := by
  unfold resolveMarket
  by_cases hW : winnersTotal m w = 0
  · rw [if_pos hW]
  · rw [if_neg hW]

theorem map_fst_resolveMarket (users : List (String × Account)) (m : Market)
    (w : Nat) : ((resolveMarket users m w).1).map Prod.fst = users.map Prod.fst := by
  unfold resolveMarket
  by_cases hW : winnersTotal m w = 0
  · rw [if_pos hW]
    exact map_fst_refundBets users m.bets
  · rw [if_neg hW]
    exact map_fst_creditPayouts users _

theorem nonneg_resolveMarket (users : List (String × Account)) (m : Market) (w : Nat)
    (h : ∀ p ∈ users, 0 ≤ p.2.balance) (hpos : ∀ b ∈ m.bets, 0 < b.amount) :
    ∀ p ∈ (resolveMarket users m w).1, 0 ≤ p.2.balance := by
  unfold resolveMarket
  by_cases hW : winnersTotal m w = 0
  · rw [if_pos hW]
    exact nonneg_refundBets h (fun b hb => (hpos b hb).le)
  · rw [if_neg hW]
    exact nonneg_creditPayouts h (settlePayouts_snd_nonneg m w hpos hW)

theorem balancesSum_resolveMarket (users : List (String × Account)) (m : Market)
    (w : Nat) (hnd : (users.map Prod.fst).Nodup)
    (hpres : ∀ b ∈ m.bets, (lookupVal users b.user).isSome = true)
    (hpos : ∀ b ∈ m.bets, 0 < b.amount) :
    balancesSum (resolveMarket users m w).1 = balancesSum users + m.total_pool := by
  unfold resolveMarket
  by_cases hW : winnersTotal m w = 0
  · rw [if_pos hW]
    show balancesSum (refundBets users m.bets) = _
    rw [balancesSum_refundBets users m.bets hnd hpres]
    rfl
  · rw [if_neg hW]
    show balancesSum (creditPayouts users (settlePayouts m w)) = _
    rw [balancesSum_creditPayouts users _ hnd
      (settlePayouts_present users m w hpos hW hpres)]
    rw [settlePayouts_sum m w hpos hW]

/-! ### Command-layer lemmas -/

theorem openPoolsSum_append (l1 l2 : List (Nat × Market)) :
    openPoolsSum (l1 ++ l2) = openPoolsSum l1 + openPoolsSum l2 := by
  unfold openPoolsSum
  rw [List.map_append, List.sum_append]

theorem ensureUser_markets (st : BotState) (u : String) :
    (ensureUser st u).markets = st.markets := by
  unfold ensureUser
  split <;> rfl

theorem ensureUser_next (st : BotState) (u : String) :
    (ensureUser st u).next_market_id = st.next_market_id := by
  unfold ensureUser
  split <;> rfl

theorem ensureUser_sb (st : BotState) (u : String) :
    (ensureUser st u).starting_balance = st.starting_balance := by
  unfold ensureUser
  split <;> rfl

theorem ensureUser_self_isSome (st : BotState) (u : String) :
    (lookupVal (ensureUser st u).users u).isSome = true := by
  unfold ensureUser
  split
  next h => exact h
  next h =>
    show (lookupVal (st.users ++ [(u, newAccount st.starting_balance)]) u).isSome
      = true
    rw [lookupVal_append_none _ (Option.not_isSome_iff_eq_none.mp h)]
    rfl

theorem ensureUser_preserves_isSome (st : BotState) (u v : String)
    (h : (lookupVal st.users v).isSome = true) :
    (lookupVal (ensureUser st u).users v).isSome = true := by
  unfold ensureUser
  split
  · exact h
  · obtain ⟨a, ha⟩ := Option.isSome_iff_exists.mp h
    show (lookupVal (st.users ++ [(u, newAccount st.starting_balance)]) v).isSome
      = true
    rw [lookupVal_append_some _ ha]
    rfl

theorem wf_ensureUser {st : BotState} (h : WF st) (u : String) :
    WF (ensureUser st u) := by
  unfold ensureUser
  split
  · exact h
  next hn =>
    have hnone : lookupVal st.users u = none := Option.not_isSome_iff_eq_none.mp hn
    have hnotmem : u ∉ st.users.map Prod.fst := (lookupVal_eq_none_iff _ _).mp hnone
    constructor
    · rw [List.map_append, List.nodup_append]
      refine ⟨h.users_nodup, List.nodup_singleton _, ?_⟩
      intro x hx hx2
      simp only [List.map_cons, List.map_nil, List.mem_singleton] at hx2
      exact hnotmem (hx2 ▸ hx)
    · exact h.markets_nodup
    · intro hsb p hp
      rcases List.mem_append.mp hp with h1 | h1
      · exact h.balances_nonneg hsb p h1
      · simp only [List.mem_singleton] at h1
        rw [h1]
        exact hsb
    · exact h.bets_pos
    · intro p hp b hb
      obtain ⟨a, ha⟩ := Option.isSome_iff_exists.mp (h.bettors_present p hp b hb)
      rw [lookupVal_append_some _ ha]
      rfl
    · exact h.ids_bound
    · show balancesSum (st.users ++ [(u, newAccount st.starting_balance)])
          + openPoolsSum st.markets
        = st.starting_balance * (st.users ++ [(u, newAccount st.starting_balance)]).length
      rw [balancesSum_append, List.length_append]
      have hone : balancesSum [(u, newAccount st.starting_balance)]
          = st.starting_balance := by
        simp [balancesSum, newAccount]
      rw [hone]
      have hc := h.conservation
      simp only [List.length_singleton]
      push_cast
      ring_nf
      ring_nf at hc
      linarith

theorem wf_cmdOpen {st : BotState} (h : WF st) (u : String)
    (q : String) (segs : List String) :
    WF (cmdOpen st u q segs).1 := by
  by_cases h1 : segs.isEmpty
  · simp only [cmdOpen, if_pos h1]
    exact h
  · by_cases h2 : q = ""
    · simp only [cmdOpen, if_neg h1, if_pos h2]
      exact h
    · by_cases h3 : (segs.filter (fun o => o ≠ "")).length < 2
      · simp only [cmdOpen, if_neg h1, if_neg h2, if_pos h3]
        exact h
      · by_cases h4 : (segs.filter (fun o => o ≠ "")).any (fun o => 40 < o.length)
          = true
        · simp only [cmdOpen, if_neg h1, if_neg h2, if_neg h3, if_pos h4]
          exact h
        · simp only [cmdOpen, if_neg h1, if_neg h2, if_neg h3, if_neg h4]
          constructor
          · rw [map_fst_updateVal]
            exact h.users_nodup
          · rw [List.map_append, List.nodup_append]
            refine ⟨h.markets_nodup, List.nodup_singleton _, ?_⟩
            intro x hx hx2
            simp only [List.map_cons, List.map_nil, List.mem_singleton] at hx2
            subst hx2
            rcases List.mem_map.mp hx with ⟨p, hp, hpe⟩
            have := h.ids_bound p hp
            omega
          · intro hsb p hp
            have hp2 : p ∈ updateVal st.users u (fun a =>
                { a with markets_created := a.markets_created + 1 }) := hp
            refine nonneg_updateVal (h.balances_nonneg hsb) ?_ p hp2
            intro a ha
            exact ha
          · intro p hp b hb
            rcases List.mem_append.mp hp with hp1 | hp1
            · exact h.bets_pos p hp1 b hb
            · simp only [List.mem_singleton] at hp1
              rw [hp1] at hb
              cases hb
          · intro p hp b hb
            rw [lookupVal_updateVal_isSome]
            rcases List.mem_append.mp hp with hp1 | hp1
            · exact h.bettors_present p hp1 b hb
            · simp only [List.mem_singleton] at hp1
              rw [hp1] at hb
              cases hb
          · intro p hp
            rcases List.mem_append.mp hp with hp1 | hp1
            · have := h.ids_bound p hp1
              show p.1 < st.next_market_id + 1
              omega
            · simp only [List.mem_singleton] at hp1
              rw [hp1]
              show st.next_market_id < st.next_market_id + 1
              omega
          · show balancesSum (updateVal st.users u (fun a =>
                { a with markets_created := a.markets_created + 1 }))
                + openPoolsSum (st.markets ++ [(st.next_market_id,
                  { market_id := st.next_market_id, question := q, creator := u,
                    options := segs.filter (fun o => o ≠ ""), status := "open",
                    bets := [], winning_option := none })])
              = st.starting_balance * ((updateVal st.users u (fun a =>
                { a with markets_created := a.markets_created + 1 })).length : Int)
            have hbal : balancesSum (updateVal st.users u (fun a =>
                { a with markets_created := a.markets_created + 1 }))
                = balancesSum st.users :=
              balancesSum_updateVal_of_balance_eq (fun a => rfl)
            rw [hbal, openPoolsSum_append, length_updateVal]
            have hz : openPoolsSum [(st.next_market_id,
                { market_id := st.next_market_id, question := q, creator := u,
                  options := segs.filter (fun o => o ≠ ""), status := "open",
                  bets := [], winning_option := none })] = 0 := by
              simp [openPoolsSum, marketContribution, Market.total_pool]
            rw [hz, add_zero]
            exact h.conservation

theorem wf_cmdBet {st : BotState} (h : WF st) (u : String)
    (hu : (lookupVal st.users u).isSome = true) (mid : Nat) (o a : Int) :
    WF (cmdBet st u mid o a).1 := by
  cases hm : lookupVal st.markets mid with
  | none =>
    simp only [cmdBet, hm]
    exact h
  | some market =>
    by_cases hs : market.status ≠ "open"
    · simp only [cmdBet, hm, if_pos hs]
      exact h
    · by_cases ho : o - 1 < 0 ∨ (market.options.length : Int) ≤ o - 1
      · simp only [cmdBet, hm, if_neg hs, if_pos ho]
        exact h
      · by_cases ha : a ≤ 0
        · simp only [cmdBet, hm, if_neg hs, if_neg ho, if_pos ha]
          exact h
        · by_cases hb : (getAccount st.users u).balance < a
          · simp only [cmdBet, hm, if_neg hs, if_neg ho, if_neg ha, if_pos hb]
            exact h
          · simp only [cmdBet, hm, if_neg hs, if_neg ho, if_neg ha, if_neg hb]
            obtain ⟨acct, hacct⟩ := Option.isSome_iff_exists.mp hu
            have hopen : market.status = "open" := not_ne_iff.mp hs
            have hapos : 0 < a := not_le.mp ha
            have hbal : a ≤ acct.balance := by
              have hb2 := not_lt.mp hb
              unfold getAccount at hb2
              rw [hacct] at hb2
              simpa using hb2
            constructor
            · rw [map_fst_updateVal]
              exact h.users_nodup
            · rw [map_fst_updateVal]
              exact h.markets_nodup
            · intro hsb p hp
              have hp2 : p ∈ updateVal st.users u (fun a0 =>
                  { a0 with balance := a0.balance - a,
                            bets_placed := a0.bets_placed + 1 }) := hp
              rcases mem_updateVal hp2 with h1 | ⟨qq, hq, hke, he⟩
              · exact h.balances_nonneg hsb p h1
              · have hlq : lookupVal st.users qq.1 = some qq.2 :=
                  lookupVal_of_mem_nodup h.users_nodup hq
                rw [hke, hacct] at hlq
                injection hlq with hv
                rw [he]
                show 0 ≤ qq.2.balance - a
                rw [← hv]
                omega
            · intro p hp b hb
              have hp2 : p ∈ updateVal st.markets mid (fun m =>
                  { m with bets := m.bets ++ [{ user := u, option_index := (o - 1).toNat, amount := a }] }) := hp
              rcases mem_updateVal hp2 with h1 | ⟨qq, hq, hke, he⟩
              · exact h.bets_pos p h1 b hb
              · rw [he] at hb
                rcases List.mem_append.mp hb with hb1 | hb1
                · exact h.bets_pos qq hq b hb1
                · simp only [List.mem_singleton] at hb1
                  rw [hb1]
                  exact hapos
            · intro p hp b hb
              rw [lookupVal_updateVal_isSome]
              have hp2 : p ∈ updateVal st.markets mid (fun m =>
                  { m with bets := m.bets ++ [{ user := u, option_index := (o - 1).toNat, amount := a }] }) := hp
              rcases mem_updateVal hp2 with h1 | ⟨qq, hq, hke, he⟩
              · exact h.bettors_present p h1 b hb
              · rw [he] at hb
                rcases List.mem_append.mp hb with hb1 | hb1
                · exact h.bettors_present qq hq b hb1
                · simp only [List.mem_singleton] at hb1
                  rw [hb1]
                  exact hu
            · intro p hp
              have hp2 : p ∈ updateVal st.markets mid (fun m =>
                  { m with bets := m.bets ++ [{ user := u, option_index := (o - 1).toNat, amount := a }] }) := hp
              rcases mem_updateVal hp2 with h1 | ⟨qq, hq, hke, he⟩
              · exact h.ids_bound p h1
              · rw [he]
                show qq.1 < st.next_market_id
                exact h.ids_bound qq hq
            · show balancesSum (updateVal st.users u (fun a0 =>
                  { a0 with balance := a0.balance - a,
                            bets_placed := a0.bets_placed + 1 }))
                  + openPoolsSum (updateVal st.markets mid (fun m =>
                    { m with bets := m.bets ++ [{ user := u, option_index := (o - 1).toNat, amount := a }] }))
                = st.starting_balance * ((updateVal st.users u (fun a0 =>
                    { a0 with balance := a0.balance - a,
                              bets_placed := a0.bets_placed + 1 })).length : Int)
              have hbsum : balancesSum (updateVal st.users u (fun a0 =>
                  { a0 with balance := a0.balance - a,
                            bets_placed := a0.bets_placed + 1 }))
                  = balancesSum st.users - a := by
                unfold balancesSum
                rw [sum_map_updateVal Account.balance _ h.users_nodup hacct]
                ring
              have hc1 : marketContribution { market with bets := market.bets
                  ++ [{ user := u, option_index := (o - 1).toNat, amount := a }] }
                  = market.total_pool + a := by
                unfold marketContribution
                rw [if_pos hopen]
                unfold Market.total_pool
                rw [List.map_append, List.sum_append]
                simp
              have hc2 : marketContribution market = market.total_pool := by
                unfold marketContribution
                rw [if_pos hopen]
              have hosum : openPoolsSum (updateVal st.markets mid (fun m =>
                  { m with bets := m.bets ++ [{ user := u, option_index := (o - 1).toNat, amount := a }] }))
                  = openPoolsSum st.markets + a := by
                unfold openPoolsSum
                rw [sum_map_updateVal marketContribution _ h.markets_nodup hm]
                rw [hc1, hc2]
                ring
              rw [hbsum, hosum, length_updateVal]
              have hcons := h.conservation
              linarith

theorem isSome_of_map_fst_eq {κ α : Type} [DecidableEq κ] {l1 l2 : List (κ × α)}
    (h : l1.map Prod.fst = l2.map Prod.fst) (k : κ) :
    (lookupVal l1 k).isSome = (lookupVal l2 k).isSome := by
  by_cases hm2 : k ∈ l2.map Prod.fst
  · have h1 : (lookupVal l1 k).isSome = true :=
      (lookupVal_isSome_iff _ _).mpr (h ▸ hm2)
    have h2 : (lookupVal l2 k).isSome = true := (lookupVal_isSome_iff _ _).mpr hm2
    rw [h1, h2]
  · have h1 : lookupVal l1 k = none :=
      (lookupVal_eq_none_iff _ _).mpr (by rw [h]; exact hm2)
    have h2 : lookupVal l2 k = none := (lookupVal_eq_none_iff _ _).mpr hm2
    rw [h1, h2]

theorem wf_cmdResolve {st : BotState} (h : WF st) (u : String) (mid : Nat)
    (o : Int) : WF (cmdResolve st u mid o).1 := by
  cases hm : lookupVal st.markets mid with
  | none =>
    simp only [cmdResolve, hm]
    exact h
  | some market =>
    by_cases hs : market.status ≠ "open"
    · simp only [cmdResolve, hm, if_pos hs]
      exact h
    · by_cases ho : o - 1 < 0 ∨ (market.options.length : Int) ≤ o - 1
      · simp only [cmdResolve, hm, if_neg hs, if_pos ho]
        exact h
      · simp only [cmdResolve, hm, if_neg hs, if_neg ho]
        have hopen : market.status = "open" := not_ne_iff.mp hs
        have hmm : (mid, market) ∈ st.markets := lookupVal_mem hm
        have hpos : ∀ b ∈ market.bets, 0 < b.amount := h.bets_pos _ hmm
        have hpres : ∀ b ∈ market.bets, (lookupVal st.users b.user).isSome = true :=
          h.bettors_present _ hmm
        have hkeys : ((resolveMarket st.users market (o - 1).toNat).1).map Prod.fst
            = st.users.map Prod.fst := map_fst_resolveMarket _ _ _
        constructor
        · rw [hkeys]
          exact h.users_nodup
        · rw [map_fst_updateVal]
          exact h.markets_nodup
        · intro hsb p hp
          have hp2 : p ∈ (resolveMarket st.users market (o - 1).toNat).1 := hp
          exact nonneg_resolveMarket st.users market _ (h.balances_nonneg hsb)
            hpos p hp2
        · intro p hp b hb
          have hp2 : p ∈ updateVal st.markets mid
              (fun _ => (resolveMarket st.users market (o - 1).toNat).2) := hp
          rcases mem_updateVal hp2 with h1 | ⟨qq, hq, hke, he⟩
          · exact h.bets_pos p h1 b hb
          · rw [he] at hb
            rw [resolveMarket_snd] at hb
            exact hpos b hb
        · intro p hp b hb
          have hiso := isSome_of_map_fst_eq hkeys b.user
          rw [hiso]
          have hp2 : p ∈ updateVal st.markets mid
              (fun _ => (resolveMarket st.users market (o - 1).toNat).2) := hp
          rcases mem_updateVal hp2 with h1 | ⟨qq, hq, hke, he⟩
          · exact h.bettors_present p h1 b hb
          · rw [he] at hb
            rw [resolveMarket_snd] at hb
            exact hpres b hb
        · intro p hp
          have hp2 : p ∈ updateVal st.markets mid
              (fun _ => (resolveMarket st.users market (o - 1).toNat).2) := hp
          rcases mem_updateVal hp2 with h1 | ⟨qq, hq, hke, he⟩
          · exact h.ids_bound p h1
          · rw [he]
            show qq.1 < st.next_market_id
            exact h.ids_bound qq hq
        · show balancesSum (resolveMarket st.users market (o - 1).toNat).1
              + openPoolsSum (updateVal st.markets mid
                (fun _ => (resolveMarket st.users market (o - 1).toNat).2))
            = st.starting_balance
              * ((resolveMarket st.users market (o - 1).toNat).1.length : Int)
          rw [balancesSum_resolveMarket st.users market _ h.users_nodup hpres hpos]
          have hc1 : marketContribution
              (resolveMarket st.users market (o - 1).toNat).2 = 0 := by
            rw [resolveMarket_snd]
            simp [marketContribution]
          have hc2 : marketContribution market = market.total_pool := by
            unfold marketContribution
            rw [if_pos hopen]
          have hosum : openPoolsSum (updateVal st.markets mid
              (fun _ => (resolveMarket st.users market (o - 1).toNat).2))
              = openPoolsSum st.markets - market.total_pool := by
            unfold openPoolsSum
            rw [sum_map_updateVal marketContribution _ h.markets_nodup hm]
            rw [hc1, hc2]
            ring
          rw [hosum]
          have hlen : (resolveMarket st.users market (o - 1).toNat).1.length
              = st.users.length := by
            have hl2 := congrArg List.length hkeys
            rwa [List.length_map, List.length_map] at hl2
          rw [hlen]
          have hcons := h.conservation
          linarith

theorem wf_cmdCancel {st : BotState} (h : WF st) (u : String) (mid : Nat) :
    WF (cmdCancel st u mid).1 := by
  cases hm : lookupVal st.markets mid with
  | none =>
    simp only [cmdCancel, hm]
    exact h
  | some market =>
    by_cases hs : market.status ≠ "open"
    · simp only [cmdCancel, hm, if_pos hs]
      exact h
    · simp only [cmdCancel, hm, if_neg hs]
      have hopen : market.status = "open" := not_ne_iff.mp hs
      have hmm : (mid, market) ∈ st.markets := lookupVal_mem hm
      have hpos : ∀ b ∈ market.bets, 0 < b.amount := h.bets_pos _ hmm
      have hpres : ∀ b ∈ market.bets, (lookupVal st.users b.user).isSome = true :=
        h.bettors_present _ hmm
      have hkeys : (refundBets st.users market.bets).map Prod.fst
          = st.users.map Prod.fst := map_fst_refundBets _ _
      constructor
      · rw [hkeys]
        exact h.users_nodup
      · rw [map_fst_updateVal]
        exact h.markets_nodup
      · intro hsb p hp
        have hp2 : p ∈ refundBets st.users market.bets := hp
        exact nonneg_refundBets (h.balances_nonneg hsb)
          (fun b hb => (hpos b hb).le) p hp2
      · intro p hp b hb
        have hp2 : p ∈ updateVal st.markets mid
            (fun m => { m with status := "cancelled" }) := hp
        rcases mem_updateVal hp2 with h1 | ⟨qq, hq, hke, he⟩
        · exact h.bets_pos p h1 b hb
        · rw [he] at hb
          exact h.bets_pos qq hq b hb
      · intro p hp b hb
        have hiso := isSome_of_map_fst_eq hkeys b.user
        rw [hiso]
        have hp2 : p ∈ updateVal st.markets mid
            (fun m => { m with status := "cancelled" }) := hp
        rcases mem_updateVal hp2 with h1 | ⟨qq, hq, hke, he⟩
        · exact h.bettors_present p h1 b hb
        · rw [he] at hb
          exact h.bettors_present qq hq b hb
      · intro p hp
        have hp2 : p ∈ updateVal st.markets mid
            (fun m => { m with status := "cancelled" }) := hp
        rcases mem_updateVal hp2 with h1 | ⟨qq, hq, hke, he⟩
        · exact h.ids_bound p h1
        · rw [he]
          show qq.1 < st.next_market_id
          exact h.ids_bound qq hq
      · show balancesSum (refundBets st.users market.bets)
            + openPoolsSum (updateVal st.markets mid
              (fun m => { m with status := "cancelled" }))
          = st.starting_balance * ((refundBets st.users market.bets).length : Int)
        rw [balancesSum_refundBets st.users market.bets h.users_nodup hpres]
        have hc2 : marketContribution market = market.total_pool := by
          unfold marketContribution
          rw [if_pos hopen]
        have hosum : openPoolsSum (updateVal st.markets mid
            (fun m => { m with status := "cancelled" }))
            = openPoolsSum st.markets - market.total_pool := by
          unfold openPoolsSum
          rw [sum_map_updateVal marketContribution _ h.markets_nodup hm]
          rw [hc2]
          have hc1 : marketContribution { market with status := "cancelled" } = 0 := by
            simp [marketContribution]
          rw [hc1]
          ring
        rw [hosum]
        have hlen : (refundBets st.users market.bets).length = st.users.length := by
          have hl2 := congrArg List.length hkeys
          rwa [List.length_map, List.length_map] at hl2
        rw [hlen]
        have hcons := h.conservation
        have hpool : (market.bets.map Bet.amount).sum = market.total_pool := rfl
        linarith

theorem wf_processCommand {st : BotState} (h : WF st) (u : String) (c : Cmd) :
    WF (processCommand st u c).1 := by
  unfold processCommand
  by_cases hu : u = ""
  · rw [if_pos hu]
    exact h
  · rw [if_neg hu]
    have he := wf_ensureUser h u
    cases c with
    | openMarket q segs => exact wf_cmdOpen he u q segs
    | bet mid o a => exact wf_cmdBet he u (ensureUser_self_isSome st u) mid o a
    | resolve mid o => exact wf_cmdResolve he u mid o
    | cancel mid => exact wf_cmdCancel he u mid
    | query => exact he

theorem cmdOpen_sb (st : BotState) (u q : String) (segs : List String) :
    (cmdOpen st u q segs).1.starting_balance = st.starting_balance := by
  by_cases h1 : segs.isEmpty
  · simp only [cmdOpen, if_pos h1]
  · by_cases h2 : q = ""
    · simp only [cmdOpen, if_neg h1, if_pos h2]
    · by_cases h3 : (segs.filter (fun o => o ≠ "")).length < 2
      · simp only [cmdOpen, if_neg h1, if_neg h2, if_pos h3]
      · by_cases h4 : (segs.filter (fun o => o ≠ "")).any (fun o => 40 < o.length)
          = true
        · simp only [cmdOpen, if_neg h1, if_neg h2, if_neg h3, if_pos h4]
        · simp only [cmdOpen, if_neg h1, if_neg h2, if_neg h3, if_neg h4]

theorem cmdBet_sb (st : BotState) (u : String) (mid : Nat) (o a : Int) :
    (cmdBet st u mid o a).1.starting_balance = st.starting_balance := by
  cases hm : lookupVal st.markets mid with
  | none => simp only [cmdBet, hm]
  | some market =>
    by_cases hs : market.status ≠ "open"
    · simp only [cmdBet, hm, if_pos hs]
    · by_cases ho : o - 1 < 0 ∨ (market.options.length : Int) ≤ o - 1
      · simp only [cmdBet, hm, if_neg hs, if_pos ho]
      · by_cases ha : a ≤ 0
        · simp only [cmdBet, hm, if_neg hs, if_neg ho, if_pos ha]
        · by_cases hb : (getAccount st.users u).balance < a
          · simp only [cmdBet, hm, if_neg hs, if_neg ho, if_neg ha, if_pos hb]
          · simp only [cmdBet, hm, if_neg hs, if_neg ho, if_neg ha, if_neg hb]

theorem cmdResolve_sb (st : BotState) (u : String) (mid : Nat) (o : Int) :
    (cmdResolve st u mid o).1.starting_balance = st.starting_balance := by
  cases hm : lookupVal st.markets mid with
  | none => simp only [cmdResolve, hm]
  | some market =>
    by_cases hs : market.status ≠ "open"
    · simp only [cmdResolve, hm, if_pos hs]
    · by_cases ho : o - 1 < 0 ∨ (market.options.length : Int) ≤ o - 1
      · simp only [cmdResolve, hm, if_neg hs, if_pos ho]
      · simp only [cmdResolve, hm, if_neg hs, if_neg ho]

theorem cmdCancel_sb (st : BotState) (u : String) (mid : Nat) :
    (cmdCancel st u mid).1.starting_balance = st.starting_balance := by
  cases hm : lookupVal st.markets mid with
  | none => simp only [cmdCancel, hm]
  | some market =>
    by_cases hs : market.status ≠ "open"
    · simp only [cmdCancel, hm, if_pos hs]
    · simp only [cmdCancel, hm, if_neg hs]

theorem processCommand_sb (st : BotState) (u : String) (c : Cmd) :
    (processCommand st u c).1.starting_balance = st.starting_balance := by
  unfold processCommand
  by_cases hu : u = ""
  · rw [if_pos hu]
  · rw [if_neg hu]
    cases c with
    | openMarket q segs => rw [cmdOpen_sb, ensureUser_sb]
    | bet mid o a => rw [cmdBet_sb, ensureUser_sb]
    | resolve mid o => rw [cmdResolve_sb, ensureUser_sb]
    | cancel mid => rw [cmdCancel_sb, ensureUser_sb]
    | query => rw [ensureUser_sb]

theorem wf_initState (sb : Int) : WF (initState sb) := by
  constructor
  · exact List.nodup_nil
  · exact List.nodup_nil
  · intro _ p hp
    cases hp
  · intro p hp
    cases hp
  · intro p hp
    cases hp
  · intro p hp
    cases hp
  · show balancesSum [] + openPoolsSum [] = sb * (0 : Int)
    simp [balancesSum, openPoolsSum]

theorem wf_runCommands (sb : Int) (cmds : List (String × Cmd)) :
    WF (runCommands sb cmds) := by
  suffices hgen : ∀ (st : BotState), WF st →
      WF (cmds.foldl (fun st uc => (processCommand st uc.1 uc.2).1) st) by
    exact hgen (initState sb) (wf_initState sb)
  induction cmds with
  | nil => intro st h; exact h
  | cons c cs ih =>
    intro st h
    exact ih _ (wf_processCommand h c.1 c.2)

theorem runCommands_sb (sb : Int) (cmds : List (String × Cmd)) :
    (runCommands sb cmds).starting_balance = sb := by
  suffices hgen : ∀ (st : BotState),
      (cmds.foldl (fun st uc => (processCommand st uc.1 uc.2).1) st).starting_balance
        = st.starting_balance by
    exact hgen (initState sb)
  induction cmds with
  | nil => intro st; rfl
  | cons c cs ih =>
    intro st
    rw [List.foldl_cons, ih, processCommand_sb]

theorem cmdOpen_created {st : BotState} {u q : String} {segs : List String}
    {mid : Nat} (hc : (cmdOpen st u q segs).2 = Resp.created mid) :
    mid = st.next_market_id := by
  by_cases h1 : segs.isEmpty
  · simp only [cmdOpen, if_pos h1] at hc
    exact Resp.noConfusion hc
  · by_cases h2 : q = ""
    · simp only [cmdOpen, if_neg h1, if_pos h2] at hc
      exact Resp.noConfusion hc
    · by_cases h3 : (segs.filter (fun o => o ≠ "")).length < 2
      · simp only [cmdOpen, if_neg h1, if_neg h2, if_pos h3] at hc
        exact Resp.noConfusion hc
      · by_cases h4 : (segs.filter (fun o => o ≠ "")).any (fun o => 40 < o.length)
          = true
        · simp only [cmdOpen, if_neg h1, if_neg h2, if_neg h3, if_pos h4] at hc
          exact Resp.noConfusion hc
        · simp only [cmdOpen, if_neg h1, if_neg h2, if_neg h3, if_neg h4] at hc
          injection hc with hc2
          exact hc2.symm

theorem filter_sum_addOneToFirst (r : Nat) (l : List (String × Int)) (u : String) :
    ((l.filter (fun p => p.1 == u)).map Prod.snd).sum
      ≤ (((addOneToFirst r l).filter (fun p => p.1 == u)).map Prod.snd).sum := by
  induction l generalizing r with
  | nil => cases r <;> simp [addOneToFirst]
  | cons x xs ih =>
    cases r with
    | zero =>
      rw [addOneToFirst_zero]
    | succ r =>
      simp only [addOneToFirst]
      by_cases hx : (x.1 == u) = true
      · have h1 : List.filter (fun p => p.1 == u) (x :: xs)
            = x :: List.filter (fun p => p.1 == u) xs := by
          simp [List.filter_cons, hx]
        have h2 : List.filter (fun p => p.1 == u)
              ((x.1, x.2 + 1) :: addOneToFirst r xs)
            = (x.1, x.2 + 1) :: List.filter (fun p => p.1 == u)
                (addOneToFirst r xs) := by
          simp [List.filter_cons, hx]
        rw [h1, h2]
        simp only [List.map_cons, List.sum_cons]
        have := ih r
        linarith
      · have h1 : List.filter (fun p => p.1 == u) (x :: xs)
            = List.filter (fun p => p.1 == u) xs := by
          simp [List.filter_cons, hx]
        have h2 : List.filter (fun p => p.1 == u)
              ((x.1, x.2 + 1) :: addOneToFirst r xs)
            = List.filter (fun p => p.1 == u) (addOneToFirst r xs) := by
          simp [List.filter_cons, hx]
        rw [h1, h2]
        exact ih r

theorem sorted_filter_sum_eq (base : List (String × Int)) (u : String) :
    (((sortPayoutsDesc base).filter (fun p => p.1 == u)).map Prod.snd).sum
      = ((base.filter (fun p => p.1 == u)).map Prod.snd).sum := by
  have hp := (sortPayoutsDesc_perm base).filter (fun p => p.1 == u)
  exact (hp.map Prod.snd).sum_eq

theorem basePayouts_user_sum_ge (m : Market) (w : Nat) (u : String)
    (hpos : ∀ b ∈ m.bets, 0 < b.amount) (hW : winnersTotal m w ≠ 0) :
    (((winnersOf m w).filter (fun b => b.user == u)).map Bet.amount).sum
      ≤ (((basePayouts m w).filter (fun p => p.1 == u)).map Prod.snd).sum := by
  have hWpos := winnersTotal_pos m w hpos hW
  have hTW := winnersTotal_le_total_pool m w (fun b hb => (hpos b hb).le)
  unfold basePayouts
  rw [List.filter_map]
  have hcongr : List.filter ((fun p => p.1 == u) ∘ (fun b =>
      (b.user, b.amount * m.total_pool / winnersTotal m w))) (winnersOf m w)
      = List.filter (fun b => b.user == u) (winnersOf m w) := by
    apply List.filter_congr
    intro b _
    rfl
  rw [hcongr, List.map_map]
  apply List.sum_le_sum
  intro b hb
  show b.amount ≤ b.amount * m.total_pool / winnersTotal m w
  have hbm : b ∈ m.bets := by
    have h1 := (List.mem_filter.mp hb).1
    exact (List.mem_filter.mp h1).1
  exact basePayout_ge_amount (hpos b hbm).le hWpos hTW

theorem settlePayouts_user_sum_ge (m : Market) (w : Nat) (u : String)
    (hpos : ∀ b ∈ m.bets, 0 < b.amount) (hW : winnersTotal m w ≠ 0) :
    (((winnersOf m w).filter (fun b => b.user == u)).map Bet.amount).sum
      ≤ (((settlePayouts m w).filter (fun p => p.1 == u)).map Prod.snd).sum := by
  rw [settlePayouts_eq_addOne m w hpos hW]
  calc (((winnersOf m w).filter (fun b => b.user == u)).map Bet.amount).sum
      ≤ (((basePayouts m w).filter (fun p => p.1 == u)).map Prod.snd).sum :=
        basePayouts_user_sum_ge m w u hpos hW
    _ = (((sortPayoutsDesc (basePayouts m w)).filter
          (fun p => p.1 == u)).map Prod.snd).sum :=
        (sorted_filter_sum_eq (basePayouts m w) u).symm
    _ ≤ _ := filter_sum_addOneToFirst _ _ u

/-! ### Claim theorems -/

/-- C1: for every market that is resolved (normal or degenerate case) or
cancelled, the total amount credited back to participant balances by the
settlement equals the market's total pool exactly, for every combination of
stake amounts and winner counts.  The first conjunct covers `_resolve_market`
(both branches); the second covers the refund loop of `_cmd_cancel`. -/
theorem settlement_conservation (users : List (String × Account)) (m : Market)
    (w : Nat) (hnd : (users.map Prod.fst).Nodup)
    (hpres : ∀ b ∈ m.bets, (lookupVal users b.user).isSome = true)
    (hpos : ∀ b ∈ m.bets, 0 < b.amount) :
    balancesSum (resolveMarket users m w).1 = balancesSum users + m.total_pool
      ∧ balancesSum (refundBets users m.bets)
        = balancesSum users + m.total_pool := by
  refine ⟨balancesSum_resolveMarket users m w hnd hpres hpos, ?_⟩
  rw [balancesSum_refundBets users m.bets hnd hpres]
  rfl

/-- Witness for C1: a market whose winner total does not divide the pool
(three winners of 10 each, pool 100). -/
theorem settlement_conservation_witness :
    ((exampleUsers.map Prod.fst).Nodup
      ∧ (∀ b ∈ exampleMarket.bets,
          (lookupVal exampleUsers b.user).isSome = true)
      ∧ (∀ b ∈ exampleMarket.bets, 0 < b.amount))
    ∧ (balancesSum (resolveMarket exampleUsers exampleMarket 0).1
          = balancesSum exampleUsers + exampleMarket.total_pool
        ∧ balancesSum (refundBets exampleUsers exampleMarket.bets)
          = balancesSum exampleUsers + exampleMarket.total_pool) :=
  ⟨⟨by decide, by decide, by decide⟩,
   settlement_conservation exampleUsers exampleMarket 0
     (by decide) (by decide) (by decide)⟩

/-- C2: with `winners_total > 0`, each winning stake's base payout is
`floor(stake.amount * total_pool / winners_total)` (that is `basePayouts` by
definition), the winners are stably sorted by payout descending (the sorted
list is a permutation of the base list, pairwise descending, and preserves
the original relative order of entries with any equal payout), and the
non-negative remainder `total_pool - sum(base payouts)` — strictly smaller
than the number of winners — is distributed one unit at a time round-robin
from the largest payout, i.e. one extra unit on each of the first
`remainder` sorted entries. -/
theorem resolve_payout_algorithm (m : Market) (w : Nat)
    (hpos : ∀ b ∈ m.bets, 0 < b.amount) (hW : winnersTotal m w ≠ 0) :
    0 ≤ m.total_pool - ((basePayouts m w).map Prod.snd).sum
    ∧ (m.total_pool - ((basePayouts m w).map Prod.snd).sum).toNat
        < (winnersOf m w).length
    ∧ settlePayouts m w
        = addOneToFirst
            (m.total_pool - ((basePayouts m w).map Prod.snd).sum).toNat
            (sortPayoutsDesc (basePayouts m w))
    ∧ (sortPayoutsDesc (basePayouts m w)).Perm (basePayouts m w)
    ∧ (sortPayoutsDesc (basePayouts m w)).Pairwise (fun p q => q.2 ≤ p.2)
    ∧ ∀ v : Int, (sortPayoutsDesc (basePayouts m w)).filter (fun p => p.2 = v)
        = (basePayouts m w).filter (fun p => p.2 = v) := by
  obtain ⟨hle, hlt⟩ := basePayouts_sum_bounds m w hpos hW
  exact ⟨by omega, by omega, settlePayouts_eq_addOne m w hpos hW,
    sortPayoutsDesc_perm _, sortPayoutsDesc_pairwise _,
    fun v => sortPayoutsDesc_filter_eq _ v⟩

/-- Witness for C2 at `exampleMarket` (pool 100, three winners of 10,
remainder 1). -/
theorem resolve_payout_algorithm_witness :
    ((∀ b ∈ exampleMarket.bets, 0 < b.amount) ∧ winnersTotal exampleMarket 0 ≠ 0)
    ∧ (0 ≤ exampleMarket.total_pool
          - ((basePayouts exampleMarket 0).map Prod.snd).sum
      ∧ (exampleMarket.total_pool
          - ((basePayouts exampleMarket 0).map Prod.snd).sum).toNat
          < (winnersOf exampleMarket 0).length
      ∧ settlePayouts exampleMarket 0
          = addOneToFirst (exampleMarket.total_pool
              - ((basePayouts exampleMarket 0).map Prod.snd).sum).toNat
              (sortPayoutsDesc (basePayouts exampleMarket 0))
      ∧ (sortPayoutsDesc (basePayouts exampleMarket 0)).Perm
          (basePayouts exampleMarket 0)
      ∧ (sortPayoutsDesc (basePayouts exampleMarket 0)).Pairwise
          (fun p q => q.2 ≤ p.2)
      ∧ ∀ v : Int, (sortPayoutsDesc (basePayouts exampleMarket 0)).filter
            (fun p => p.2 = v)
          = (basePayouts exampleMarket 0).filter (fun p => p.2 = v)) :=
  ⟨⟨by decide, by decide⟩,
   resolve_payout_algorithm exampleMarket 0 (by decide) (by decide)⟩

/-- C3: resolving a market whose winning outcome has zero stakes credits
every bettor back exactly the sum of their staked amounts, and leaves every
other account field — in particular `lifetime_winnings` — unchanged; the
market ends up resolved. -/
theorem degenerate_resolution_refund (users : List (String × Account))
    (m : Market) (w : Nat) (hW : winnersTotal m w = 0) :
    (∀ (u : String) (acct : Account), lookupVal users u = some acct →
      lookupVal (resolveMarket users m w).1 u
        = some { acct with balance := acct.balance
            + ((m.bets.filter (fun b => b.user == u)).map Bet.amount).sum })
    ∧ (resolveMarket users m w).2.status = "resolved" := by
  constructor
  · intro u acct hacct
    unfold resolveMarket
    rw [if_pos hW]
    show lookupVal (refundBets users m.bets) u = _
    rw [lookupVal_refundBets, hacct]
    rfl
  · rw [resolveMarket_snd]

/-- Witness for C3 at `exampleMarketNoWinners` (both stakes on outcome 1,
resolved with outcome 0 winning). -/
theorem degenerate_resolution_refund_witness :
    winnersTotal exampleMarketNoWinners 0 = 0
    ∧ ((∀ (u : String) (acct : Account), lookupVal exampleUsers u = some acct →
        lookupVal (resolveMarket exampleUsers exampleMarketNoWinners 0).1 u
          = some { acct with balance := acct.balance
              + ((exampleMarketNoWinners.bets.filter
                  (fun b => b.user == u)).map Bet.amount).sum })
      ∧ (resolveMarket exampleUsers exampleMarketNoWinners 0).2.status
          = "resolved") :=
  ⟨by decide,
   degenerate_resolution_refund exampleUsers exampleMarketNoWinners 0 (by decide)⟩

/-- C4: starting from a fresh ledger with a non-negative starting allotment,
every account balance stays non-negative after any command sequence; and a
bet whose amount exceeds the bettor's current balance fails with the
insufficient-funds error, returning the state entirely unchanged (no balance
change, no stake appended, no counter incremented). -/
theorem no_negative_balance (sb : Int) (cmds : List (String × Cmd))
    (hsb : 0 ≤ sb) :
    (∀ p ∈ (runCommands sb cmds).users, 0 ≤ p.2.balance)
    ∧ ∀ (st : BotState) (u : String) (mid : Nat) (o a : Int) (m : Market)
        (acct : Account), lookupVal st.markets mid = some m →
        m.status = "open" →
        ¬(o - 1 < 0 ∨ (m.options.length : Int) ≤ o - 1) → ¬(a ≤ 0) →
        lookupVal st.users u = some acct → acct.balance < a →
        cmdBet st u mid o a = (st, Resp.errInsufficientFunds) := by
  constructor
  · intro p hp
    have h := wf_runCommands sb cmds
    have hsb2 : 0 ≤ (runCommands sb cmds).starting_balance := by
      rw [runCommands_sb]
      exact hsb
    exact h.balances_nonneg hsb2 p hp
  · intro st u mid o a m acct hm hopen ho ha hacct hlt
    have hs : ¬(m.status ≠ "open") := not_ne_iff.mpr hopen
    have hb : (getAccount st.users u).balance < a := by
      unfold getAccount
      rw [hacct]
      simpa using hlt
    simp only [cmdBet, hm, if_neg hs, if_neg ho, if_neg ha, if_pos hb]

/-- Witness for C4: the standard 1000-point allotment and a sequence opening
a market and betting on it. -/
theorem no_negative_balance_witness :
    (0 : Int) ≤ 1000
    ∧ ((∀ p ∈ (runCommands 1000
          [("u1", Cmd.openMarket "q" ["A", "B"]), ("u1", Cmd.bet 1 1 600),
           ("u2", Cmd.bet 1 2 1000)]).users, 0 ≤ p.2.balance)
      ∧ ∀ (st : BotState) (u : String) (mid : Nat) (o a : Int) (m : Market)
          (acct : Account), lookupVal st.markets mid = some m →
          m.status = "open" →
          ¬(o - 1 < 0 ∨ (m.options.length : Int) ≤ o - 1) → ¬(a ≤ 0) →
          lookupVal st.users u = some acct → acct.balance < a →
          cmdBet st u mid o a = (st, Resp.errInsufficientFunds)) :=
  ⟨by decide,
   no_negative_balance 1000
     [("u1", Cmd.openMarket "q" ["A", "B"]), ("u1", Cmd.bet 1 1 600),
      ("u2", Cmd.bet 1 2 1000)] (by decide)⟩

/-- C5: attempting to resolve or cancel a market whose status is already
`"resolved"` or `"cancelled"` fails with the already-closed error and
returns the state completely unchanged (all balances, stake lists, the
market's status and winning outcome included). -/
theorem terminal_market_unchanged (st : BotState) (u : String) (mid : Nat)
    (o : Int) (m : Market) (hm : lookupVal st.markets mid = some m)
    (hs : m.status = "resolved" ∨ m.status = "cancelled") :
    cmdResolve st u mid o = (st, Resp.errClosed)
      ∧ cmdCancel st u mid = (st, Resp.errClosed) := by
  have hne : m.status ≠ "open" := by
    rcases hs with h | h <;> rw [h] <;> decide
  constructor
  · simp only [cmdResolve, hm, if_pos hne]
  · simp only [cmdCancel, hm, if_pos hne]

/-- Witness for C5 at `exampleResolvedState`, whose market 1 is resolved. -/
theorem terminal_market_unchanged_witness :
    (∃ m : Market, lookupVal exampleResolvedState.markets 1 = some m
      ∧ (m.status = "resolved" ∨ m.status = "cancelled"))
    ∧ cmdResolve exampleResolvedState "u1" 1 1
        = (exampleResolvedState, Resp.errClosed)
    ∧ cmdCancel exampleResolvedState "u1" 1
        = (exampleResolvedState, Resp.errClosed) := by
  have h := terminal_market_unchanged exampleResolvedState "u1" 1 1
    { market_id := 1, question := "q", creator := "u1",
      options := ["A", "B"], status := "resolved", bets := [⟨"u1", 0, 10⟩],
      winning_option := some 0 } (by decide) (by decide)
  refine ⟨⟨{ market_id := 1, question := "q", creator := "u1",
             options := ["A", "B"], status := "resolved",
             bets := [⟨"u1", 0, 10⟩], winning_option := some 0 },
    by decide, by decide⟩, h.1, h.2⟩

/-- C6 counterexample: the claim says an empty outcome string makes creation
fail with an invalid-market error, but `_cmd_open` silently filters empty
segments out instead.  With segments `["A", "", "B"]` — which contain an
empty outcome string — the market is created. -/
theorem open_accepts_empty_outcome_segment :
    ("" ∈ (["A", "", "B"] : List String))
    ∧ (processCommand (initState 1000) "alice"
        (Cmd.openMarket "Q" ["A", "", "B"])).2 = Resp.created 1
    ∧ ((processCommand (initState 1000) "alice"
        (Cmd.openMarket "Q" ["A", "", "B"])).1.markets.map Prod.fst) = [1] := by
  exact ⟨by decide, by decide, by decide⟩

/-- C6 amended: `_cmd_open` first discards empty outcome segments, then
requires a non-empty question, at least two remaining outcomes, and every
remaining outcome at most 40 characters; if any of these fails it returns
the invalid-market error with no market created, and on success the created
market's outcomes are exactly the filtered segments (hence all non-empty and
within the length bound). -/
theorem open_validation (st : BotState) (u q : String) (segs : List String)
    (hseg : segs ≠ []) :
    ((q = "" ∨ (segs.filter (fun o => o ≠ "")).length < 2
        ∨ (segs.filter (fun o => o ≠ "")).any (fun o => 40 < o.length) = true) →
      cmdOpen st u q segs = (st, Resp.errInvalidMarket))
    ∧ (q ≠ "" → ¬((segs.filter (fun o => o ≠ "")).length < 2) →
        (segs.filter (fun o => o ≠ "")).any (fun o => 40 < o.length) = false →
        (cmdOpen st u q segs).2 = Resp.created st.next_market_id
        ∧ (cmdOpen st u q segs).1.markets
            = st.markets ++ [(st.next_market_id,
                { market_id := st.next_market_id, question := q, creator := u,
                  options := segs.filter (fun o => o ≠ ""), status := "open",
                  bets := [], winning_option := none })]
        ∧ ∀ o ∈ segs.filter (fun o => o ≠ ""), o ≠ "" ∧ o.length ≤ 40) := by
  have h1 : ¬(segs.isEmpty = true) := by
    cases segs with
    | nil => exact absurd rfl hseg
    | cons a as => simp
  constructor
  · intro hcond
    by_cases h2 : q = ""
    · simp only [cmdOpen, if_neg h1, if_pos h2]
    · by_cases h3 : (segs.filter (fun o => o ≠ "")).length < 2
      · simp only [cmdOpen, if_neg h1, if_neg h2, if_pos h3]
      · have h4 : (segs.filter (fun o => o ≠ "")).any (fun o => 40 < o.length)
            = true := by
          rcases hcond with hc | hc | hc
          · exact absurd hc h2
          · exact absurd hc h3
          · exact hc
        simp only [cmdOpen, if_neg h1, if_neg h2, if_neg h3, if_pos h4]
  · intro h2 h3 h4
    have h4n : ¬((segs.filter (fun o => o ≠ "")).any (fun o => 40 < o.length)
        = true) := by
      rw [h4]
      simp
    simp only [cmdOpen, if_neg h1, if_neg h2, if_neg h3, if_neg h4n]
    refine ⟨trivial, trivial, ?_⟩
    intro o ho
    have hmem := List.mem_filter.mp ho
    constructor
    · simpa using hmem.2
    · have hall := List.any_eq_false.mp h4 o ho
      simp only [decide_eq_true_eq] at hall
      omega

/-- Witness for the amended C6: both a rejected and an accepted opening. -/
theorem open_validation_witness :
    ((["A", "B"] : List String) ≠ []
      ∧ (["A"] : List String) ≠ [])
    ∧ cmdOpen (initState 1000) "alice" "Q" ["A"]
        = (initState 1000, Resp.errInvalidMarket)
    ∧ (cmdOpen (initState 1000) "alice" "Q" ["A", "B"]).2
        = Resp.created (initState 1000).next_market_id := by
  have hrej := (open_validation (initState 1000) "alice" "Q" ["A"]
    (by decide)).1 (Or.inr (Or.inl (by decide)))
  have hacc := ((open_validation (initState 1000) "alice" "Q" ["A", "B"]
    (by decide)).2 (by decide) (by decide) (by decide)).1
  exact ⟨⟨by decide, by decide⟩, hrej, hacc⟩

/-- C7: the spec's worked example.  Outcomes [A, B]; user1 bets 300 on A,
user2 bets 100 on A, user3 bets 200 on B; resolving with A winning gives
total_pool 600, winners_total 400, payouts 450 and 150 with remainder 0, and
final balances 1150, 1050, 800 (net +150, +50, −200), so the ledger-wide sum
of balances equals 3 × 1000 (sum of deltas 0). -/
theorem worked_example :
    ((lookupVal (runCommands 1000 exampleCmds).markets 1).map Market.total_pool
        = some 600)
    ∧ ((lookupVal (runCommands 1000 exampleCmds).markets 1).map
        (fun m => winnersTotal m 0) = some 400)
    ∧ ((lookupVal (runCommands 1000 exampleCmds).markets 1).map
        (fun m => settlePayouts m 0) = some [("user1", 450), ("user2", 150)])
    ∧ ((lookupVal (runCommands 1000 exampleCmds).markets 1).map
        (fun m => m.total_pool - ((basePayouts m 0).map Prod.snd).sum)
        = some 0)
    ∧ ((lookupVal (runCommands 1000 exampleCmds).users "user1").map
        Account.balance = some 1150)
    ∧ ((lookupVal (runCommands 1000 exampleCmds).users "user2").map
        Account.balance = some 1050)
    ∧ ((lookupVal (runCommands 1000 exampleCmds).users "user3").map
        Account.balance = some 800)
    ∧ balancesSum (runCommands 1000 exampleCmds).users = 1000 * 3 := by
  decide

/-- C8: stored market ids are duplicate-free after any command sequence, and
a successful `!open` yields an id that is strictly greater than every
existing market id — including the ids of cancelled markets, which stay in
the registry — hence never reused. -/
theorem market_ids_monotonic (sb : Int) (cmds : List (String × Cmd))
    (u q : String) (segs : List String) :
    ((runCommands sb cmds).markets.map Prod.fst).Nodup
    ∧ ∀ mid : Nat,
        (processCommand (runCommands sb cmds) u (Cmd.openMarket q segs)).2
          = Resp.created mid →
        mid ∉ (runCommands sb cmds).markets.map Prod.fst
        ∧ ∀ k ∈ (runCommands sb cmds).markets.map Prod.fst, k < mid := by
  have h := wf_runCommands sb cmds
  refine ⟨h.markets_nodup, ?_⟩
  intro mid hc
  have hmid : mid = (runCommands sb cmds).next_market_id := by
    by_cases hu : u = ""
    · simp only [processCommand, if_pos hu] at hc
      exact Resp.noConfusion hc
    · simp only [processCommand, if_neg hu] at hc
      have h2 := cmdOpen_created hc
      rw [ensureUser_next] at h2
      exact h2
  constructor
  · intro hmem
    rcases List.mem_map.mp hmem with ⟨p, hp, hpe⟩
    have hlt := h.ids_bound p hp
    omega
  · intro k hk
    rcases List.mem_map.mp hk with ⟨p, hp, hpe⟩
    have hlt := h.ids_bound p hp
    omega

/-- Witness for C8: after opening (and cancelling) a market, a second open
gets the fresh id 2, larger than the cancelled market's id 1. -/
theorem market_ids_monotonic_witness :
    ((runCommands 1000 [("alice", Cmd.openMarket "q" ["A", "B"]),
        ("alice", Cmd.cancel 1)]).markets.map Prod.fst).Nodup
    ∧ ((processCommand (runCommands 1000
          [("alice", Cmd.openMarket "q" ["A", "B"]), ("alice", Cmd.cancel 1)])
          "bob" (Cmd.openMarket "r" ["C", "D"])).2 = Resp.created 2)
    ∧ (2 ∉ (runCommands 1000 [("alice", Cmd.openMarket "q" ["A", "B"]),
          ("alice", Cmd.cancel 1)]).markets.map Prod.fst
        ∧ ∀ k ∈ (runCommands 1000 [("alice", Cmd.openMarket "q" ["A", "B"]),
            ("alice", Cmd.cancel 1)]).markets.map Prod.fst, k < 2) := by
  have h := market_ids_monotonic 1000
    [("alice", Cmd.openMarket "q" ["A", "B"]), ("alice", Cmd.cancel 1)]
    "bob" "r" ["C", "D"]
  exact ⟨h.1, by decide, h.2 2 (by decide)⟩

/-- C9: global currency conservation: after any command sequence from the
fresh state, the sum of all account balances plus the stake totals of all
open markets equals the starting balance times the number of accounts — no
command creates or destroys currency. -/
theorem currency_conservation (sb : Int) (cmds : List (String × Cmd)) :
    balancesSum (runCommands sb cmds).users
        + openPoolsSum (runCommands sb cmds).markets
      = sb * ((runCommands sb cmds).users.length : Int) := by
  have h := (wf_runCommands sb cmds).conservation
  rwa [runCommands_sb] at h

/-- C10: with `winners_total > 0`, each winning stake's floored base payout
is at least the stake's amount (`total_pool ≥ winners_total`), and every
winning bettor's balance after settlement is at least their previous balance
plus the total of their winning stakes. -/
theorem winner_payout_at_least_stake (users : List (String × Account))
    (m : Market) (w : Nat) (hpos : ∀ b ∈ m.bets, 0 < b.amount)
    (hW : winnersTotal m w ≠ 0) :
    (∀ b ∈ winnersOf m w,
      b.amount ≤ b.amount * m.total_pool / winnersTotal m w)
    ∧ ∀ (u : String) (acct : Account), lookupVal users u = some acct →
        ∃ acct2 : Account,
          lookupVal (resolveMarket users m w).1 u = some acct2
          ∧ acct.balance + (((winnersOf m w).filter
              (fun b => b.user == u)).map Bet.amount).sum ≤ acct2.balance := by
  have hWpos := winnersTotal_pos m w hpos hW
  have hTW := winnersTotal_le_total_pool m w (fun b hb => (hpos b hb).le)
  constructor
  · intro b hb
    have hbm : b ∈ m.bets := (List.mem_filter.mp hb).1
    exact basePayout_ge_amount (hpos b hbm).le hWpos hTW
  · intro u acct hacct
    unfold resolveMarket
    rw [if_neg hW]
    show ∃ acct2 : Account,
      lookupVal (creditPayouts users (settlePayouts m w)) u = some acct2
        ∧ acct.balance + (((winnersOf m w).filter
            (fun b => b.user == u)).map Bet.amount).sum ≤ acct2.balance
    rw [lookupVal_creditPayouts, hacct, Option.map_some']
    refine ⟨_, rfl, ?_⟩
    show acct.balance
        + (((winnersOf m w).filter (fun b => b.user == u)).map Bet.amount).sum
      ≤ acct.balance
        + (((settlePayouts m w).filter (fun p => p.1 == u)).map Prod.snd).sum
    have hle := settlePayouts_user_sum_ge m w u hpos hW
    linarith

/-- Witness for C10 at `exampleMarket` and `exampleUsers`. -/
theorem winner_payout_at_least_stake_witness :
    ((∀ b ∈ exampleMarket.bets, 0 < b.amount)
      ∧ winnersTotal exampleMarket 0 ≠ 0)
    ∧ ((∀ b ∈ winnersOf exampleMarket 0,
        b.amount ≤ b.amount * exampleMarket.total_pool
          / winnersTotal exampleMarket 0)
      ∧ ∀ (u : String) (acct : Account),
          lookupVal exampleUsers u = some acct →
          ∃ acct2 : Account,
            lookupVal (resolveMarket exampleUsers exampleMarket 0).1 u
              = some acct2
            ∧ acct.balance + (((winnersOf exampleMarket 0).filter
                (fun b => b.user == u)).map Bet.amount).sum ≤ acct2.balance) :=
  ⟨⟨by decide, by decide⟩,
   winner_payout_at_least_stake exampleUsers exampleMarket 0
     (by decide) (by decide)⟩
